import Mathlib

/-!
Verification of the qmr-compiler-generator solver core.

This file gives a shallow embedding, in Lean 4, of the generic quantum-circuit
solver of the repository (domain structures from `src/structures.rs`, the
utility functions of `solver/src/utils.rs`, and the routing / initial-mapping
pipeline of `solver/src/backend.rs`), together with theorems settling the
behavioural claims about that code.

Modelling conventions:
 * Rust `f64` cost values are embedded as `ℚ` (exact arithmetic; the claims
   under study are about control flow and exact accounting, not rounding).
 * `HashMap` values are embedded as association lists with overwrite-on-insert
   semantics; `HashSet` iteration order is embedded as an explicit list.
 * Rust panics (`unwrap` on `None`, `panic!`) are embedded as `Except` errors.
 * The thread-local random generator is embedded as an explicit stream of
   numbers threaded through the functions that consume randomness.
-/

namespace QMR

/-- Logical qubit: dense nonnegative index (`Qubit(usize)` in `src/structures.rs`). -/
abbrev Qubit := ℕ

/-- Physical location: dense nonnegative index (`Location(usize)` in `src/structures.rs`). -/
abbrev Location := ℕ

/-- Operation tags, from the `GateType` enum of `src/structures.rs`. -/
inductive GateType where
  | CX
  | T
deriving DecidableEq, Repr

/-- A gate: operation tag, ordered qubit list, stable identifier
(`Gate` in `src/structures.rs`).  Note that the Rust `PartialEq` instance
compares gates by `id` only; the embedding keeps structural equality and uses
explicit `id` comparisons exactly where the source relies on `PartialEq`. -/
structure Gate where
  gate_type : GateType
  qubits : List Qubit
  id : ℕ
deriving DecidableEq, Repr

/-- A circuit: ordered gate list plus the set of referenced qubits
(`Circuit` in `src/structures.rs`).  The `qubits` field models the `HashSet`
together with its iteration order. -/
structure Circuit where
  gates : List Gate
  qubits : List Qubit
deriving DecidableEq, Repr

/-- Loop body of `Circuit::get_front_layer` (`src/structures.rs` lines 70-82):
scan the gates in order, keep a gate when none of its qubits is blocked, and
extend the blocked set with the gate's qubits whether or not it was kept. -/
def frontAux : List Gate → List Qubit → List Gate
  | [], _ => []
  | g :: rest, blocked =>
    if g.qubits.all (fun q => ¬ blocked.contains q) then
      g :: frontAux rest (blocked ++ g.qubits)
    else
      frontAux rest (blocked ++ g.qubits)

/-- Embeds `Circuit::get_front_layer` from `src/structures.rs`. -/
def Circuit.get_front_layer (c : Circuit) : List Gate :=
  frontAux c.gates []

/-- Embeds `Circuit::remove_gates` from `src/structures.rs`: retain the gates not
contained in `gs`, where containment uses the Rust `PartialEq` on `Gate`,
i.e. equality of identifiers. -/
def Circuit.remove_gates (c : Circuit) (gs : List Gate) : Circuit :=
  { c with gates := c.gates.filter (fun g => ¬ gs.any (fun h => h.id = g.id)) }

/-- Embeds `Circuit::reversed` from `src/structures.rs`. -/
def Circuit.reversed (c : Circuit) : Circuit :=
  { c with gates := c.gates.reverse }

/-- Embeds `circuit_from_gates` from `src/structures.rs`: rebuild the qubit set from
the gates. -/
def circuit_from_gates (gates : List Gate) : Circuit :=
  { gates := gates, qubits := (gates.flatMap Gate.qubits).dedup }

/-- Association-list insert with overwrite, modelling `HashMap::insert`. -/
def alInsert (m : List (ℕ × ℕ)) (k v : ℕ) : List (ℕ × ℕ) :=
  if (m.map Prod.fst).contains k then
    m.map (fun p => if p.1 = k then (p.1, v) else p)
  else
    (k, v) :: m

/-- Association-list lookup, modelling `HashMap::get`. -/
def alLookup (m : List (ℕ × ℕ)) (k : ℕ) : Option ℕ :=
  (m.find? (fun p => p.1 = k)).map Prod.snd

/-- Loop body of `build_criticality_table` (`solver/src/utils.rs` lines
375-384): for each gate, `d` is the maximum over **all** of the circuit's
qubits of the depth recorded for that qubit (`0` when nothing is recorded);
the gate is assigned `d + 1`, and then **every** qubit of the circuit has its
recorded depth set to `d + 1`.  (The two inner iterations really do range
over `c.qubits`, not over the gate's own qubits.) -/
def critGo (qs : List Qubit) :
    List Gate → List (ℕ × ℕ) → List (ℕ × ℕ) → List (ℕ × ℕ)
  | [], _, gate_table => gate_table
  | g :: rest, qubit_table, gate_table =>
    let d := (qs.filterMap (fun q => alLookup qubit_table q)).foldl max 0
    critGo qs rest
      (qs.foldl (fun qt q => alInsert qt q (d + 1)) qubit_table)
      (alInsert gate_table g.id (d + 1))

/-- Embeds `build_criticality_table` from `solver/src/utils.rs` lines 372-386. -/
def build_criticality_table (c : Circuit) : List (ℕ × ℕ) :=
  critGo c.qubits c.gates [] []

/-- Embeds `drop_zeros_and_normalize` from `solver/src/utils.rs` lines 102-119:
first pass sums the weights of the pairs with nonzero value, second pass sums
`(w / total_weight) * v` over **all** pairs. -/
def drop_zeros_and_normalize (weighted_values : List (ℚ × ℚ)) : ℚ :=
  let total_weight := weighted_values.foldl (fun acc p => if p.2 ≠ 0 then acc + p.1 else acc) 0
  weighted_values.foldl (fun acc p => acc + p.1 / total_weight * p.2) 0

/-- A qubit mapping (`QubitMap = HashMap<Qubit, Location>`), embedded as an
association list carrying the map's entries. -/
abbrev QubitMap := List (Qubit × Location)

/-- Models `HashMap::insert` on a qubit mapping: overwrite the entry of `q` when
present, otherwise add a new entry. -/
def qmInsert (m : QubitMap) (q : Qubit) (l : Location) : QubitMap :=
  if (m.map Prod.fst).contains q then
    m.map (fun p => if p.1 = q then (p.1, l) else p)
  else
    (q, l) :: m

/-- Models `HashMap::get` on a qubit mapping. -/
def qmGet (m : QubitMap) (q : Qubit) : Option Location :=
  (m.find? (fun p => p.1 = q)).map Prod.snd

/-- The mapping-injectivity property of the specification: no two distinct
qubits of the mapping share a location. -/
def MapInjective (m : QubitMap) : Prop :=
  ∀ p₁ ∈ m, ∀ p₂ ∈ m, p₁.1 ≠ p₂.1 → p₁.2 ≠ p₂.2

instance (m : QubitMap) : Decidable (MapInjective m) := by
  unfold MapInjective; infer_instance

/-- The keys of a qubit mapping are pairwise distinct (an invariant of the
`HashMap` representation). -/
def KeysNodup (m : QubitMap) : Prop :=
  (m.map Prod.fst).Nodup

/-- An implemented gate: a gate paired with its plug-in implementation value
(`ImplementedGate` in `src/structures.rs`). -/
structure ImplementedGate (G : Type) where
  gate : Gate
  implementation : G
deriving DecidableEq, Repr

/-- A step: a qubit mapping plus the set of implemented gates
(`Step` in `src/structures.rs`).  The `HashSet` is embedded as a list with
insert-if-absent semantics. -/
structure Step (G : Type) where
  map : QubitMap
  implemented_gates : List (ImplementedGate G)
deriving DecidableEq, Repr

/-- Models `HashSet::insert` on the implemented-gate set.  Rust equality of
`ImplementedGate` values compares the gate by identifier (the custom
`PartialEq` of `Gate`) and the implementation structurally. -/
def igInsert {G : Type} [DecidableEq G] (s : List (ImplementedGate G))
    (ig : ImplementedGate G) : List (ImplementedGate G) :=
  if s.any (fun x => x.gate.id = ig.gate.id ∧ x.implementation = ig.implementation) then s
  else ig :: s

/-- Embeds `Step::gates` from `src/structures.rs`: the gates of the implemented set. -/
def Step.gates {G : Type} (s : Step G) : List Gate :=
  s.implemented_gates.map ImplementedGate.gate

/-- Embeds `Step::max_step` from `src/structures.rs` lines 112-131: iterate the
executable gates in the order given; for each gate ask `implement_gate` for a
candidate implementation conditional on the step built so far, and record the
candidate when one is produced.  The qubit mapping is never touched. -/
def Step.max_step {G A : Type} [DecidableEq G] (step : Step G)
    (executable : List Gate) (arch : A)
    (implement_gate : Step G → A → Gate → Option G) : Step G :=
  executable.foldl
    (fun st gate =>
      match implement_gate st arch gate with
      | none => st
      | some impl =>
        { st with implemented_gates := igInsert st.implemented_gates ⟨gate, impl⟩ })
    step

/-- A transition (the `Transition` trait of `solver`): a rewrite on steps, a
textual tag, and a cost depending on the architecture. -/
structure Transition (G A : Type) where
  apply : Step G → Step G
  repr : String
  cost : A → ℚ

/-- A compiler result (`CompilerResult` in `src/structures.rs`). -/
structure CompilerResult (G : Type) where
  steps : List (Step G)
  transitions : List String
  cost : ℚ
deriving DecidableEq

/-- The thread-local random generator, embedded as an explicit stream: a list
of natural numbers (index draws) and a list of rationals (unit-interval
draws).  An exhausted stream yields `0`. -/
structure Rng where
  nats : List ℕ
  rats : List ℚ
deriving DecidableEq, Repr

/-- Draw one natural number from the stream. -/
def Rng.nextNat (r : Rng) : ℕ × Rng :=
  (r.nats.headD 0, { r with nats := r.nats.tail })

/-- Draw one rational (modelling `rand::random::<f64>()`) from the stream. -/
def Rng.nextRat (r : Rng) : ℚ × Rng :=
  (r.rats.headD 0, { r with rats := r.rats.tail })

/-- Sampling without replacement, modelling
`IndexedRandom::choose_multiple(rng, k)`: repeatedly draw an index into the
remaining pool and remove the chosen element. -/
def sampleDistinct : ℕ → List Location → Rng → List Location × Rng
  | 0, _, rng => ([], rng)
  | _ + 1, [], rng => ([], rng)
  | k + 1, pool, rng =>
    let (n, rng') := rng.nextNat
    let i := n % pool.length
    let rest := sampleDistinct k (pool.eraseIdx i) rng'
    (pool.getD i 0 :: rest.1, rest.2)

/-- Embeds `random_map` from `solver/src/backend.rs` lines 20-29: choose
`c.qubits.len()` pairwise-distinct locations and zip them with the circuit's
qubits into a mapping. -/
def random_map (c : Circuit) (locations : List Location) (rng : Rng) :
    QubitMap × Rng :=
  let (v, rng') := sampleDistinct c.qubits.length locations rng
  ((c.qubits.zip v).foldl (fun m p => qmInsert m p.1 p.2) [], rng')

/-- A neighbourhood move of the annealing search, as generated by
`random_neighbor` (`solver/src/backend.rs` lines 64-98): either swap the
locations of two mapped qubits, or relocate one qubit to a free location. -/
inductive AnnealMove where
  | swapKeys (q₁ q₂ : Qubit)
  | intoOpen (q : Qubit) (l : Location)
deriving DecidableEq, Repr

/-- The move list built by `random_neighbor`: a swap move for every ordered
pair of distinct mapped qubits, then a relocation move for every mapped qubit
and every architecture location not currently occupied. -/
def genMoves (m : QubitMap) (locations : List Location) : List AnnealMove :=
  (m.map Prod.fst).flatMap (fun q₁ =>
    (m.map Prod.fst).filterMap (fun q₂ =>
      if q₁ = q₂ then none else some (AnnealMove.swapKeys q₁ q₂)))
  ++ (m.map Prod.fst).flatMap (fun q =>
    locations.filterMap (fun l =>
      if (m.map Prod.snd).contains l then none else some (AnnealMove.intoOpen q l)))

/-- Apply one neighbourhood move to a mapping (the closures built by
`random_neighbor`).  A swap inserts each qubit at the other one's location;
a relocation inserts the qubit at the chosen free location. -/
def applyMove (m : QubitMap) : AnnealMove → QubitMap
  | AnnealMove.swapKeys q₁ q₂ =>
    match qmGet m q₁, qmGet m q₂ with
    | some l₁, some l₂ => qmInsert (qmInsert m q₁ l₂) q₂ l₁
    | _, _ => m
  | AnnealMove.intoOpen q l => qmInsert m q l

/-- Embeds `random_neighbor` from `solver/src/backend.rs`: build the move list and
apply a uniformly chosen move.  The Rust `choose(rng).unwrap()` panics on an
empty move list; the embedding returns the mapping unchanged in that case
(the claims below quantify over the generated moves themselves). -/
def random_neighbor (m : QubitMap) (locations : List Location) (rng : Rng) :
    QubitMap × Rng :=
  let moves := genMoves m locations
  let (n, rng') := rng.nextNat
  match moves with
  | [] => (m, rng')
  | _ => (applyMove m (moves.getD (n % moves.length) (AnnealMove.intoOpen 0 0)), rng')

/-- Score weights `ALPHA`, `BETA`, `GAMMA`, `DELTA` from
`solver/src/backend.rs` lines 10-13 (all `1.0`). -/
def ALPHA : ℚ := 1

/-- See `ALPHA`. -/
def BETA : ℚ := 1

/-- See `ALPHA`. -/
def GAMMA : ℚ := 1

/-- See `ALPHA`. -/
def DELTA : ℚ := 1

/-- Annealing schedule constants from `solver/src/backend.rs` lines 14-16. -/
def INITIAL_TEMP : ℚ := 10

/-- See `INITIAL_TEMP`. -/
def TERM_TEMP : ℚ := 1 / 100000

/-- See `INITIAL_TEMP`. -/
def COOL_RATE : ℚ := 99 / 100

/-- Embeds `simulated_anneal` from `src/backend.rs` lines 20-52.  The cooling loop
(`while temp > term_temp`) is given explicit fuel; `exp` on the Metropolis
acceptance probability is floating point in the source and is abstracted here
as the function parameter `expFn`.  Each iteration draws one neighbour and one
acceptance rational from the stream. -/
def simulated_anneal {T : Type} (term_temp cool_rate : ℚ)
    (neighbor : T → Rng → T × Rng) (cost_function : T → ℚ) (expFn : ℚ → ℚ) :
    ℕ → ℚ → T → ℚ → T → ℚ → Rng → T × Rng
  | 0, _, best, _, _, _, rng => (best, rng)
  | fuel + 1, temp, best, best_cost, current, curr_cost, rng =>
    if temp > term_temp then
      let (next, rng₁) := neighbor current rng
      let next_cost := cost_function next
      let delta_curr := next_cost - curr_cost
      let delta_best := next_cost - best_cost
      let (rnd, rng₂) := rng₁.nextRat
      if delta_best < 0 then
        simulated_anneal term_temp cool_rate neighbor cost_function expFn
          fuel (temp * cool_rate) next next_cost next next_cost rng₂
      else if rnd < expFn (-delta_curr / temp) then
        simulated_anneal term_temp cool_rate neighbor cost_function expFn
          fuel (temp * cool_rate) best best_cost next next_cost rng₂
      else
        simulated_anneal term_temp cool_rate neighbor cost_function expFn
          fuel (temp * cool_rate) best best_cost current curr_cost rng₂
    else
      (best, rng)

/-- Embeds `sim_anneal_mapping_search` from `solver/src/backend.rs` lines 100-116:
anneal over qubit mappings with the `random_neighbor` neighbourhood. -/
def sim_anneal_mapping_search (locations : List Location) (start : QubitMap)
    (heuristic : QubitMap → ℚ) (expFn : ℚ → ℚ) (saFuel : ℕ) (rng : Rng) :
    QubitMap × Rng :=
  simulated_anneal TERM_TEMP COOL_RATE
    (fun m r => random_neighbor m locations r) heuristic expFn
    saFuel INITIAL_TEMP start (heuristic start) start (heuristic start) rng

/-- Fatal outcomes of the routing loop: the `panic!("No valid next step
found")` of `route`, or exhaustion of the loop fuel (the Rust loop has no
termination guarantee of its own). -/
inductive RouteErr where
  | noValidNextStep
  | fuelExhausted
deriving DecidableEq, Repr

/-- The fixed plug-in data threaded through the routing loop: the
architecture value, the transition generator, the step maximizer (standing for
the `max_step` / `max_step_all_orders` branch selected by
`explore_routing_orders`), the step-cost function, the mapping heuristic used
during routing, and the criticality table. -/
structure RouteEnv (G A : Type) where
  arch : A
  transitions : Step G → List (Transition G A)
  maximize : Step G → List Gate → Step G
  step_cost : Step G → A → ℚ
  map_eval : Circuit → QubitMap → ℚ
  crit_table : List (ℕ × ℕ)

/-- The body of the `for trans in transitions(last_step)` loop of
`find_best_next_step` (`solver/src/backend.rs` lines 199-219): apply the
transition, maximize the fresh step against the current front layer, and
score with the zero-dropping weighted mean of (step cost, transition cost,
mapping heuristic, negated realized criticality). -/
def scoreCandidate {G A : Type} (env : RouteEnv G A) (c : Circuit)
    (last_step : Step G) (t : Transition G A) : Step G × Transition G A × ℚ :=
  let executable := c.get_front_layer
  let next := env.maximize (t.apply last_step) executable
  let s_cost := env.step_cost next env.arch
  let t_cost := t.cost env.arch
  let m_cost := env.map_eval (circuit_from_gates executable) next.map
  let total_criticality : ℕ :=
    (next.gates.map (fun g => (alLookup env.crit_table g.id).getD 0)).sum
  let cost := drop_zeros_and_normalize
    [(ALPHA, s_cost), (BETA, t_cost), (GAMMA, m_cost),
     (DELTA, -(total_criticality : ℚ))]
  (next, t, cost)

/-- Embeds `find_best_next_step` from `solver/src/backend.rs` lines 182-232: fold
over the transitions produced by the generator, keeping the candidate with
the strictly smallest score (ties keep the earlier candidate). -/
def find_best_next_step {G A : Type} (env : RouteEnv G A) (c : Circuit)
    (last_step : Step G) : Option (Step G × Transition G A × ℚ) :=
  (env.transitions last_step).foldl
    (fun best t =>
      match best with
      | some (_, _, b) =>
        if (scoreCandidate env c last_step t).2.2 < b then
          some (scoreCandidate env c last_step t)
        else best
      | none => some (scoreCandidate env c last_step t))
    none

/-- The `while current_circ.gates.len() > 0` loop of `route`
(`solver/src/backend.rs` lines 150-174), with explicit fuel.  `stepsAcc` holds
the steps already pushed before `last`; on success the result carries
`stepsAcc ++ [last]`, the transition tags taken, and the accumulated cost. -/
def routeAux {G A : Type} (env : RouteEnv G A) :
    ℕ → Circuit → List (Step G) → Step G → List String → ℚ →
    Except RouteErr (CompilerResult G)
  | 0, _, _, _, _, _ => .error .fuelExhausted
  | fuel + 1, current, stepsAcc, last, transAcc, cost =>
    if current.gates.isEmpty then
      .ok ⟨stepsAcc ++ [last], transAcc, cost⟩
    else
      match find_best_next_step env current last with
      | none => .error .noValidNextStep
      | some (s, t, _b) =>
        routeAux env fuel (current.remove_gates s.gates) (stepsAcc ++ [last]) s
          (transAcc ++ [t.repr]) (cost + env.step_cost s env.arch + t.cost env.arch)

/-- Embeds `route` from `solver/src/backend.rs` lines 118-180: build the initial step
from the initial mapping, record its step cost **before** maximization,
maximize it against the circuit's front layer, remove the realized gates, and
then run the greedy loop. -/
def route {G A : Type} (env : RouteEnv G A) (c : Circuit) (map : QubitMap)
    (fuel : ℕ) : Except RouteErr (CompilerResult G) :=
  let step_0 : Step G := { map := map, implemented_gates := [] }
  let cost := env.step_cost step_0 env.arch
  let step_0 := env.maximize step_0 c.get_front_layer
  let current_circ := c.remove_gates step_0.gates
  routeAux env fuel current_circ [] step_0 [] cost

/-- One iteration of the routing loop viewed as a transformation of the pair
(remaining circuit, last step): `none` when the loop would exit (no gates
left) or abort (no candidate next step). -/
def routeStepOnce {G A : Type} (env : RouteEnv G A) (p : Circuit × Step G) :
    Option (Circuit × Step G) :=
  if p.1.gates.isEmpty then none
  else
    (find_best_next_step env p.1 p.2).map
      (fun x => (p.1.remove_gates x.1.gates, x.1))

/-- Iterates the routing loop `k` times on the (remaining circuit, last step)
pair. -/
def routeIter {G A : Type} (env : RouteEnv G A) :
    ℕ → Circuit × Step G → Option (Circuit × Step G)
  | 0, p => some p
  | k + 1, p => (routeStepOnce env p).bind (routeIter env k)

/-- Fatal outcomes of `solve`: the `Option::unwrap` panic in the
initial-mapping selection, or a routing failure. -/
inductive SolveErr where
  | panicUnwrap
  | routing (e : RouteErr)
deriving DecidableEq, Repr

/-- Models `Option::unwrap`, with the panic made explicit. -/
def unwrapO {α : Type} : Option α → Except Unit α
  | some a => .ok a
  | none => .error ()

/-- Embeds `solve` from `solver/src/backend.rs` lines 234-298.  The subgraph
isomorphism search and its watchdog (`isomorphism_map_with_timeout`) are
abstracted as the input `isomMap`: the map the search reported, or `none` on
timeout / no embedding.  When a mapping heuristic is supplied, the annealing
strategy is skipped (`sa_map = None`) exactly when the isomorphism map's
heuristic cost is `0`; the final selection then takes the isomorphism map only
when both costs exist and the isomorphism cost is strictly smaller, and
otherwise unwraps `sa_map`. -/
def solve {G A : Type} [DecidableEq G] (c : Circuit) (locations : List Location)
    (arch : A) (transitions : Step G → List (Transition G A))
    (maximize : Step G → List Gate → Step G) (step_cost : Step G → A → ℚ)
    (mapping_heuristic : Option (A → Circuit → QubitMap → ℚ))
    (isomMap : Option QubitMap) (expFn : ℚ → ℚ) (saFuel routeFuel : ℕ)
    (rng : Rng) : Except SolveErr (CompilerResult G) × Rng :=
  let crit_table := build_criticality_table c
  match mapping_heuristic with
  | some heuristic =>
    let map_h := fun m => heuristic arch c m
    let isomCost := isomMap.map map_h
    let (saMap, rng') :=
      match isomCost with
      | some ic =>
        if ic = 0 then ((none : Option QubitMap), rng)
        else
          let (s, r₁) := random_map c locations rng
          let (m, r₂) := sim_anneal_mapping_search locations s map_h expFn saFuel r₁
          (some m, r₂)
      | none =>
        let (s, r₁) := random_map c locations rng
        let (m, r₂) := sim_anneal_mapping_search locations s map_h expFn saFuel r₁
        (some m, r₂)
    let saCost := saMap.map map_h
    let chosen : Except Unit QubitMap :=
      match isomCost, saCost with
      | some ic, some sc => if ic < sc then unwrapO isomMap else unwrapO saMap
      | _, _ => unwrapO saMap
    match chosen with
    | .error _ => (.error .panicUnwrap, rng')
    | .ok map =>
      ((route ⟨arch, transitions, maximize, step_cost,
          fun c' m => heuristic arch c' m, crit_table⟩ c map routeFuel).mapError
        SolveErr.routing, rng')
  | none =>
    let (map, rng') := random_map c locations rng
    ((route ⟨arch, transitions, maximize, step_cost, fun _ _ => 0,
        crit_table⟩ c map routeFuel).mapError SolveErr.routing, rng')

/-- An undirected device graph as returned by the `Architecture::graph`
accessor: node weights are locations; `adj` gives the neighbour iteration
order of each node. -/
structure SGraph where
  nodes : List Location
  adj : Location → List Location

/-- Removal of the blocked nodes from a working copy of the graph
(the `graph.remove_node` loop at the top of `all_paths`,
`solver/src/utils.rs` lines 296-301): the surviving nodes and neighbour lists
are those that avoid `blocked`. -/
def removeNodes (g : SGraph) (blocked : List Location) : SGraph :=
  { nodes := g.nodes.filter (fun v => ¬ blocked.contains v),
    adj := fun v => (g.adj v).filter (fun u => ¬ blocked.contains u) }

/-- The mutable state captured by the `from_fn` closure of `all_paths`:
the index into `unblocked_starts`, the `visited` vertex list, and the stack of
partially consumed neighbour iterators (head = top of stack). -/
structure PathState where
  startCounter : ℕ
  visited : List Location
  stack : List (List Location)
deriving DecidableEq, Repr

/-- One call of the `all_paths` iterator (`solver/src/utils.rs` lines
324-369): run the DFS loop until a path is yielded (`some`) or the iterator is
exhausted (`none`).  The loop itself is given explicit fuel.  `g` is the
graph with blocked nodes removed, `ustarts`/`uends` the unblocked start and
end lists, `ends` the caller's original end list, and `maxLength` the node
count of the graph **before** removal. -/
def pathNext (g : SGraph) (ustarts ends uends : List Location) (maxLength : ℕ) :
    ℕ → PathState → Option (List Location × PathState)
  | 0, _ => none
  | fuel + 1, st =>
    match st.stack with
    | children :: restStack =>
      match children with
      | [] =>
        pathNext g ustarts ends uends maxLength fuel
          { st with stack := restStack, visited := st.visited.dropLast }
      | child :: restChildren =>
        if st.visited.length < maxLength then
          if ends.contains child then
            some (st.visited ++ [child], { st with stack := restChildren :: restStack })
          else if st.visited.contains child then
            pathNext g ustarts ends uends maxLength fuel
              { st with stack := restChildren :: restStack }
          else
            pathNext g ustarts ends uends maxLength fuel
              { st with visited := st.visited ++ [child],
                        stack := g.adj child :: restChildren :: restStack }
        else
          if uends.contains child then
            some (st.visited ++ [child], { st with stack := restChildren :: restStack })
          else
            match restChildren.dropWhile (fun x => ¬ uends.contains x) with
            | _ :: remaining =>
              some (st.visited ++ [child], { st with stack := remaining :: restStack })
            | [] =>
              pathNext g ustarts ends uends maxLength fuel
                { st with stack := restStack, visited := st.visited.dropLast }
    | [] =>
      match ustarts[st.startCounter + 1]? with
      | some s =>
        pathNext g ustarts ends uends maxLength fuel
          { startCounter := st.startCounter + 1, visited := [s], stack := [g.adj s] }
      | none => none

/-- Collect the paths produced by repeatedly calling the iterator. -/
def collectPaths (g : SGraph) (ustarts ends uends : List Location)
    (maxLength : ℕ) : ℕ → PathState → List (List Location)
  | 0, _ => []
  | fuel + 1, st =>
    match pathNext g ustarts ends uends maxLength fuel st with
    | none => []
    | some (p, st') => p :: collectPaths g ustarts ends uends maxLength fuel st'

/-- Embeds `all_paths` from `solver/src/utils.rs` lines 288-370, as the list of
paths the lazy iterator yields (within `fuel` loop iterations).  `g₀` is the
graph returned by `arch.graph()`. -/
def all_paths (g₀ : SGraph) (starts ends blocked : List Location) (fuel : ℕ) :
    List (List Location) :=
  let maxLength := g₀.nodes.length
  let g := removeNodes g₀ blocked
  let ustarts := starts.filter (fun s => g.nodes.contains s)
  let uends := ends.filter (fun e => g.nodes.contains e)
  let st : PathState :=
    match ustarts with
    | [] => { startCounter := 0, visited := [], stack := [] }
    | s :: _ => { startCounter := 0, visited := [s], stack := [g.adj s] }
  collectPaths g ustarts ends uends maxLength fuel st

/-- Front layer as the claim words it: the maximal **prefix** of the gate
list in which each qubit appears in at most one gate (scan gates in order and
stop at the first gate that reuses a qubit of an earlier kept gate). -/
def claimFrontPrefixAux : List Gate → List Qubit → List Gate
  | [], _ => []
  | g :: rest, blocked =>
    if g.qubits.all (fun q => ¬ blocked.contains q) then
      g :: claimFrontPrefixAux rest (blocked ++ g.qubits)
    else
      []

/-- See `claimFrontPrefixAux`. -/
def claimFrontPrefix (c : Circuit) : List Gate :=
  claimFrontPrefixAux c.gates []

/-- Front layer as the code actually behaves (the amended description): the
subsequence of gates none of whose qubits appears in **any** earlier gate of
the circuit, kept or skipped. -/
def specFrontSubseqAux : List Gate → List Gate → List Gate
  | [], _ => []
  | g :: rest, earlier =>
    if g.qubits.all (fun q => earlier.all (fun h => ¬ h.qubits.contains q)) then
      g :: specFrontSubseqAux rest (earlier ++ [g])
    else
      specFrontSubseqAux rest (earlier ++ [g])

/-- See `specFrontSubseqAux`. -/
def specFrontSubseq (c : Circuit) : List Gate :=
  specFrontSubseqAux c.gates []

/-- Criticality table as the claim words it: each gate's depth is `1 +` the
maximum over **that gate's own qubits** of the depth previously recorded for
the qubit (`0` when none), recording the new depth on the gate's own qubits. -/
def claimCritGo : List Gate → List (ℕ × ℕ) → List (ℕ × ℕ) → List (ℕ × ℕ)
  | [], _, gate_table => gate_table
  | g :: rest, qubit_table, gate_table =>
    let d := (g.qubits.filterMap (fun q => alLookup qubit_table q)).foldl max 0
    claimCritGo rest
      (g.qubits.foldl (fun qt q => alInsert qt q (d + 1)) qubit_table)
      (alInsert gate_table g.id (d + 1))

/-- See `claimCritGo`. -/
def claimCriticalityTable (c : Circuit) : List (ℕ × ℕ) :=
  claimCritGo c.gates [] []

/-! ## Association-list lemmas -/

theorem alLookup_nil (k : ℕ) : alLookup [] k = none := rfl

theorem alLookup_cons (p : ℕ × ℕ) (m : List (ℕ × ℕ)) (k : ℕ) :
    alLookup (p :: m) k = if p.1 = k then some p.2 else alLookup m k := by
  by_cases h : p.1 = k <;> simp [alLookup, List.find?, h]

theorem alLookup_replace_self (k v : ℕ) :
    ∀ m : List (ℕ × ℕ), (∃ v₀, alLookup m k = some v₀) →
      alLookup (m.map (fun p => if p.1 = k then (p.1, v) else p)) k = some v := by
  intro m
  induction m with
  | nil => rintro ⟨v₀, hv⟩; simp [alLookup] at hv
  | cons p m ih =>
    rintro ⟨v₀, hv⟩
    by_cases hk : p.1 = k
    · have hhead : (if p.1 = k then (p.1, v) else p) = (p.1, v) := if_pos hk
      rw [List.map_cons, hhead, alLookup_cons, if_pos hk]
    · rw [alLookup_cons, if_neg hk] at hv
      have hhead : (if p.1 = k then (p.1, v) else p) = p := if_neg hk
      rw [List.map_cons, hhead, alLookup_cons, if_neg hk]
      exact ih ⟨v₀, hv⟩

theorem alLookup_replace_ne (k v k' : ℕ) (h : k' ≠ k) :
    ∀ m : List (ℕ × ℕ),
      alLookup (m.map (fun p => if p.1 = k then (p.1, v) else p)) k' =
        alLookup m k' := by
  intro m
  induction m with
  | nil => rfl
  | cons p m ih =>
    by_cases hk : p.1 = k
    · have hne : ¬ (p.1 = k') := by rw [hk]; exact fun hh => h hh.symm
      have hhead : (if p.1 = k then (p.1, v) else p) = (p.1, v) := if_pos hk
      rw [List.map_cons, hhead, alLookup_cons, alLookup_cons, if_neg hne, if_neg hne]
      exact ih
    · have hhead : (if p.1 = k then (p.1, v) else p) = p := if_neg hk
      rw [List.map_cons, hhead, alLookup_cons, alLookup_cons]
      by_cases hk' : p.1 = k'
      · rw [if_pos hk', if_pos hk']
      · rw [if_neg hk', if_neg hk']
        exact ih

theorem alLookup_of_contains (m : List (ℕ × ℕ)) (k : ℕ)
    (hc : (m.map Prod.fst).contains k = true) :
    ∃ v₀, alLookup m k = some v₀ := by
  induction m with
  | nil => simp at hc
  | cons p m ih =>
    by_cases hk : p.1 = k
    · exact ⟨p.2, by rw [alLookup_cons, if_pos hk]⟩
    · have hc' : (m.map Prod.fst).contains k = true := by
        have hkk : ¬ (k = p.1) := fun hh => hk hh.symm
        simpa [List.contains_cons, hkk] using hc
      obtain ⟨v₀, hv⟩ := ih hc'
      exact ⟨v₀, by rw [alLookup_cons, if_neg hk]; exact hv⟩

theorem alLookup_alInsert_self (m : List (ℕ × ℕ)) (k v : ℕ) :
    alLookup (alInsert m k v) k = some v := by
  unfold alInsert
  by_cases hc : (m.map Prod.fst).contains k = true
  · rw [if_pos hc]
    exact alLookup_replace_self k v m (alLookup_of_contains m k hc)
  · rw [if_neg hc, alLookup_cons, if_pos rfl]

theorem alLookup_alInsert_ne (m : List (ℕ × ℕ)) (k v k' : ℕ) (h : k' ≠ k) :
    alLookup (alInsert m k v) k' = alLookup m k' := by
  unfold alInsert
  by_cases hc : (m.map Prod.fst).contains k = true
  · rw [if_pos hc]
    exact alLookup_replace_ne k v k' h m
  · rw [if_neg hc, alLookup_cons, if_neg (fun hh => h hh.symm)]

/-! ## C3: front layer -/

theorem frontAux_eq_specFrontSubseqAux :
    ∀ (gates : List Gate) (blocked : List Qubit) (earlier : List Gate),
      (∀ q : Qubit, q ∈ blocked ↔ ∃ h ∈ earlier, q ∈ h.qubits) →
      frontAux gates blocked = specFrontSubseqAux gates earlier := by
  intro gates
  induction gates with
  | nil => intro _ _ _; rfl
  | cons g rest ih =>
    intro blocked earlier hinv
    have hcond :
        ((g.qubits.all (fun q => ¬ blocked.contains q)) = true) ↔
          ((g.qubits.all (fun q => earlier.all (fun h => ¬ h.qubits.contains q))) = true) := by
      simp only [List.all_eq_true, decide_eq_true_eq, List.elem_eq_mem, Bool.not_eq_true,
        decide_eq_false_iff_not]
      constructor
      · intro hh q hq h hhe hqh
        exact hh q hq ((hinv q).mpr ⟨h, hhe, hqh⟩)
      · intro hh q hq hb
        obtain ⟨h, hhe, hqh⟩ := (hinv q).mp hb
        exact hh q hq h hhe hqh
    have hinv' :
        ∀ q : Qubit, q ∈ blocked ++ g.qubits ↔ ∃ h ∈ earlier ++ [g], q ∈ h.qubits := by
      intro q
      simp only [List.mem_append, List.mem_singleton, hinv q]
      constructor
      · rintro (⟨h, hhe, hqh⟩ | hq)
        · exact ⟨h, Or.inl hhe, hqh⟩
        · exact ⟨g, Or.inr rfl, hq⟩
      · rintro ⟨h, hhe | hhe, hqh⟩
        · exact Or.inl ⟨h, hhe, hqh⟩
        · subst hhe; exact Or.inr hqh
    simp only [frontAux, specFrontSubseqAux]
    by_cases hb : (g.qubits.all (fun q => earlier.all (fun h => ¬ h.qubits.contains q))) = true
    · rw [if_pos (hcond.mpr hb), if_pos hb, ih _ _ hinv']
    · rw [if_neg (fun hh => hb (hcond.mp hh)), if_neg hb, ih _ _ hinv']

/-- The concrete circuit refuting the "maximal prefix" reading: gate 1 shares
qubit 0 with gate 0 and is skipped, but gate 2 (disjoint qubits) is still
returned, so the front layer is not a prefix of the gate list. -/
def frontCircuit : Circuit :=
  { gates := [⟨GateType.CX, [0, 1], 0⟩, ⟨GateType.CX, [0, 2], 1⟩,
              ⟨GateType.CX, [3, 4], 2⟩],
    qubits := [0, 1, 2, 3, 4] }

/-- C3, counterexample: on `frontCircuit`, `get_front_layer` returns gates 0
and 2, which is not the maximal prefix (that prefix is just gate 0) in which
each qubit appears in at most one gate. -/
theorem front_layer_is_not_maximal_prefix :
    Circuit.get_front_layer frontCircuit ≠ claimFrontPrefix frontCircuit := by
  decide

/-- C3, amended: `get_front_layer` returns the subsequence of gates (in
order) none of whose qubits appears in any earlier gate of the circuit —
skipped gates still block their qubits, so the result need not be a prefix. -/
theorem front_layer_eq_gates_unblocked_by_earlier (c : Circuit) :
    Circuit.get_front_layer c = specFrontSubseq c := by
  unfold Circuit.get_front_layer specFrontSubseq
  apply frontAux_eq_specFrontSubseqAux
  intro q
  simp

/-! ## C4: criticality table -/

theorem fold_alInsert_lookup_not_mem (v : ℕ) :
    ∀ (qs : List ℕ) (qt : List (ℕ × ℕ)) (q : ℕ), q ∉ qs →
      alLookup (qs.foldl (fun t x => alInsert t x v) qt) q = alLookup qt q := by
  intro qs
  induction qs with
  | nil => intro qt q _; rfl
  | cons x qs ih =>
    intro qt q hq
    have hqx : q ≠ x := fun hh => hq (hh ▸ List.mem_cons_self x qs)
    have hq' : q ∉ qs := fun hh => hq (List.mem_cons_of_mem x hh)
    rw [List.foldl_cons, ih _ _ hq', alLookup_alInsert_ne _ _ _ _ hqx]

theorem fold_alInsert_lookup_mem (v : ℕ) :
    ∀ (qs : List ℕ) (qt : List (ℕ × ℕ)) (q : ℕ), q ∈ qs →
      alLookup (qs.foldl (fun t x => alInsert t x v) qt) q = some v := by
  intro qs
  induction qs with
  | nil => intro _ q hq; exact absurd hq (List.not_mem_nil q)
  | cons x qs ih =>
    intro qt q hq
    by_cases hmem : q ∈ qs
    · rw [List.foldl_cons]; exact ih _ _ hmem
    · have hqx : q = x := by
        rcases List.mem_cons.mp hq with h | h
        · exact h
        · exact absurd h hmem
      rw [List.foldl_cons, fold_alInsert_lookup_not_mem v qs _ _ hmem, hqx,
        alLookup_alInsert_self]

theorem foldl_max_const : ∀ (l : List ℕ) (j : ℕ), (∀ x ∈ l, x = j) → l.foldl max j = j := by
  intro l
  induction l with
  | nil => intro j _; rfl
  | cons x l ih =>
    intro j hl
    have hx : x = j := hl x (List.mem_cons_self x l)
    rw [List.foldl_cons, hx, Nat.max_self]
    exact ih j (fun y hy => hl y (List.mem_cons_of_mem x hy))

theorem foldl_max_zero_const (l : List ℕ) (j : ℕ) (hl : ∀ x ∈ l, x = j)
    (hne : l ≠ []) : l.foldl max 0 = j := by
  cases l with
  | nil => exact absurd rfl hne
  | cons x l =>
    have hx : x = j := hl x (List.mem_cons_self x l)
    rw [List.foldl_cons, hx, Nat.zero_max]
    exact foldl_max_const l j (fun y hy => hl y (List.mem_cons_of_mem x hy))

theorem critGo_lookup_not_mem (qs : List ℕ) :
    ∀ (gates : List Gate) (qt gt : List (ℕ × ℕ)) (n : ℕ),
      (∀ g ∈ gates, g.id ≠ n) →
      alLookup (critGo qs gates qt gt) n = alLookup gt n := by
  intro gates
  induction gates with
  | nil => intro _ _ _ _; rfl
  | cons g rest ih =>
    intro qt gt n hn
    rw [critGo, ih _ _ _ (fun g' hg' => hn g' (List.mem_cons_of_mem g hg')),
      alLookup_alInsert_ne _ _ _ _ (fun hh => hn g (List.mem_cons_self g rest) hh.symm)]

theorem critGo_lookup (qs : List ℕ) (hqs : qs ≠ []) :
    ∀ (gates : List Gate) (qt gt : List (ℕ × ℕ)) (j : ℕ),
      (∀ q ∈ qs, alLookup qt q = if j = 0 then none else some j) →
      (gates.map Gate.id).Nodup →
      ∀ i (h : i < gates.length),
        alLookup (critGo qs gates qt gt) (gates.get ⟨i, h⟩).id = some (j + i + 1) := by
  intro gates
  induction gates with
  | nil => intro _ _ _ _ _ i h; exact absurd h (by simp)
  | cons g rest ih =>
    intro qt gt j hqt hnodup i h
    have hd : (qs.filterMap (fun q => alLookup qt q)).foldl max 0 = j := by
      by_cases hj : j = 0
      · have : qs.filterMap (fun q => alLookup qt q) = [] := by
          apply List.filterMap_eq_nil_iff.mpr
          intro q hq
          rw [hqt q hq, if_pos hj]
        rw [this, hj]; rfl
      · apply foldl_max_zero_const
        · intro x hx
          obtain ⟨q, hq, hfq⟩ := List.mem_filterMap.mp hx
          rw [hqt q hq, if_neg hj] at hfq
          exact (Option.some_inj.mp hfq).symm
        · obtain ⟨q₀, hq₀⟩ := List.exists_mem_of_ne_nil qs hqs
          intro hempty
          have : j ∈ qs.filterMap (fun q => alLookup qt q) :=
            List.mem_filterMap.mpr ⟨q₀, hq₀, by rw [hqt q₀ hq₀, if_neg hj]⟩
          rw [hempty] at this
          exact List.not_mem_nil j this
    have hnodup' : (rest.map Gate.id).Nodup := (List.nodup_cons.mp hnodup).2
    have hgid : g.id ∉ rest.map Gate.id := (List.nodup_cons.mp hnodup).1
    have hqt' : ∀ q ∈ qs,
        alLookup (qs.foldl (fun qt' q' => alInsert qt' q' (j + 1)) qt) q =
          if j + 1 = 0 then none else some (j + 1) := by
      intro q hq
      rw [if_neg (Nat.succ_ne_zero j)]
      exact fold_alInsert_lookup_mem (j + 1) qs qt q hq
    rw [critGo, hd]
    cases i with
    | zero =>
      have hne : ∀ g' ∈ rest, g'.id ≠ g.id := by
        intro g' hg' hh
        exact hgid (hh ▸ List.mem_map_of_mem Gate.id hg')
      simp only [List.get]
      rw [critGo_lookup_not_mem qs rest _ _ g.id hne, alLookup_alInsert_self]
    | succ i' =>
      have h' : i' < rest.length := by
        have := h; simp only [List.length_cons] at this; omega
      have := ih _ (alInsert gt g.id (j + 1)) (j + 1) hqt' hnodup' i' h'
      simp only [List.get]
      rw [this]
      congr 1
      omega

/-- The concrete circuit refuting the per-gate depth formula: the two gates
act on disjoint qubit pairs, yet the second gate receives depth 2 because the
table update and the maximum both range over all of the circuit's qubits. -/
def critCircuit : Circuit :=
  { gates := [⟨GateType.CX, [0, 1], 0⟩, ⟨GateType.CX, [2, 3], 1⟩],
    qubits := [0, 1, 2, 3] }

/-- C4, counterexample: on `critCircuit`, gate 1 (on fresh qubits 2,3) gets
depth 2 from the code, while the claimed formula (1 + max over the gate's own
qubits' recorded depths) gives 1. -/
theorem criticality_not_own_qubit_depth :
    alLookup (build_criticality_table critCircuit) 1 ≠
      alLookup (claimCriticalityTable critCircuit) 1 := by
  decide

/-- C4, amended: `build_criticality_table` assigns each gate `1 +` the
maximum over **all** the circuit's qubits of the previously recorded depth,
and records the new depth on every qubit; hence (for distinct gate ids and a
nonempty qubit set) the `i`-th gate of the circuit is mapped to `i + 1`. -/
theorem criticality_table_eq_position_succ (c : Circuit)
    (hq : c.qubits ≠ []) (hids : (c.gates.map Gate.id).Nodup)
    (i : ℕ) (h : i < c.gates.length) :
    alLookup (build_criticality_table c) (c.gates.get ⟨i, h⟩).id = some (i + 1) := by
  have := critGo_lookup c.qubits hq c.gates [] [] 0
    (fun q _ => by rw [if_pos rfl]; rfl) hids i h
  simpa [build_criticality_table] using this

/-- C4, witness: the amended statement evaluated on `critCircuit` at index 1. -/
theorem criticality_table_eq_position_succ_witness :
    alLookup (build_criticality_table critCircuit)
      (critCircuit.gates.get ⟨1, by decide⟩).id = some 2 :=
  criticality_table_eq_position_succ critCircuit (by decide) (by decide) 1 (by decide)

/-! ## C6: weighted zero-dropping mean -/

theorem foldl_weight_sum (k : ℚ) (hk : k ≠ 0) :
    ∀ (l : List (ℚ × ℚ)) (a : ℚ), (∀ p ∈ l, p.2 = k) →
      l.foldl (fun acc p => if p.2 ≠ 0 then acc + p.1 else acc) a =
        a + (l.map Prod.fst).sum := by
  intro l
  induction l with
  | nil => intro a _; simp
  | cons p l ih =>
    intro a hl
    have hp : p.2 = k := hl p (List.mem_cons_self p l)
    have hne : p.2 ≠ 0 := by rw [hp]; exact hk
    rw [List.foldl_cons, if_pos hne, ih _ (fun y hy => hl y (List.mem_cons_of_mem p hy))]
    simp [List.map_cons, List.sum_cons]
    ring

theorem foldl_weighted_sum (k W : ℚ) :
    ∀ (l : List (ℚ × ℚ)) (a : ℚ), (∀ p ∈ l, p.2 = k) →
      l.foldl (fun acc p => acc + p.1 / W * p.2) a =
        a + (l.map Prod.fst).sum / W * k := by
  intro l
  induction l with
  | nil => intro a _; simp
  | cons p l ih =>
    intro a hl
    have hp : p.2 = k := hl p (List.mem_cons_self p l)
    rw [List.foldl_cons, hp, ih _ (fun y hy => hl y (List.mem_cons_of_mem p hy))]
    simp [List.map_cons, List.sum_cons]
    ring

/-- C6, counterexample: the empty collection of pairs vacuously has all its
values equal to `k = 1 ≠ 0`, yet `drop_zeros_and_normalize` returns `0`, not
`k`. -/
theorem drop_zeros_mean_fails_on_empty :
    (∀ p ∈ ([] : List (ℚ × ℚ)), p.2 = (1 : ℚ)) ∧
      drop_zeros_and_normalize [] ≠ 1 := by
  constructor
  · intro p hp; exact absurd hp (List.not_mem_nil p)
  · norm_num [drop_zeros_and_normalize]

/-- C6, amended: for pairs whose values all equal the same `k ≠ 0` and whose
weights have nonzero total, `drop_zeros_and_normalize` returns `k` (on the
empty collection, or when the weights cancel, it returns `0 / 0 · k`-style
degenerate values instead). -/
theorem drop_zeros_mean_of_const_values (l : List (ℚ × ℚ)) (k : ℚ)
    (hval : ∀ p ∈ l, p.2 = k) (hk : k ≠ 0)
    (hW : (l.map Prod.fst).sum ≠ 0) :
    drop_zeros_and_normalize l = k := by
  unfold drop_zeros_and_normalize
  rw [foldl_weight_sum k hk l 0 hval, zero_add, foldl_weighted_sum k _ l 0 hval,
    zero_add, div_self hW, one_mul]

/-- C6, witness: the amended statement evaluated on `[(2, 5), (1, 5)]`. -/
theorem drop_zeros_mean_of_const_values_witness :
    drop_zeros_and_normalize [((2 : ℚ), (5 : ℚ)), (1, 5)] = 5 :=
  drop_zeros_mean_of_const_values [(2, 5), (1, 5)] 5
    (by intro p hp; rcases List.mem_cons.mp hp with h | h
        · rw [h]
        · rcases List.mem_cons.mp h with h' | h'
          · rw [h']
          · exact absurd h' (List.not_mem_nil p))
    (by norm_num) (by norm_num)

/-! ## C10: frame property of max_step -/

theorem igInsert_mem {G : Type} [DecidableEq G] (s : List (ImplementedGate G))
    (x ig : ImplementedGate G) (h : ig ∈ igInsert s x) : ig = x ∨ ig ∈ s := by
  unfold igInsert at h
  by_cases hc : s.any (fun y => y.gate.id = x.gate.id ∧ y.implementation = x.implementation)
  · rw [if_pos hc] at h; exact Or.inr h
  · rw [if_neg hc] at h
    rcases List.mem_cons.mp h with h' | h'
    · exact Or.inl h'
    · exact Or.inr h'

theorem max_step_map_unchanged {G A : Type} [DecidableEq G] :
    ∀ (executable : List Gate) (step : Step G) (arch : A)
      (implement_gate : Step G → A → Gate → Option G),
      (step.max_step executable arch implement_gate).map = step.map := by
  intro executable
  induction executable with
  | nil => intro step _ _; rfl
  | cons g rest ih =>
    intro step arch f
    unfold Step.max_step
    rw [List.foldl_cons]
    cases hf : f step arch g with
    | none =>
      have := ih step arch f
      unfold Step.max_step at this
      simpa [hf] using this
    | some impl =>
      have := ih { step with implemented_gates := igInsert step.implemented_gates ⟨g, impl⟩ }
        arch f
      unfold Step.max_step at this
      simpa [hf] using this

theorem max_step_gates_from {G A : Type} [DecidableEq G] :
    ∀ (executable : List Gate) (step : Step G) (arch : A)
      (implement_gate : Step G → A → Gate → Option G),
      ∀ ig ∈ (step.max_step executable arch implement_gate).implemented_gates,
        ig ∈ step.implemented_gates ∨ ig.gate ∈ executable := by
  intro executable
  induction executable with
  | nil => intro step _ _ ig hig; exact Or.inl hig
  | cons g rest ih =>
    intro step arch f ig hig
    unfold Step.max_step at hig
    rw [List.foldl_cons] at hig
    cases hf : f step arch g with
    | none =>
      rw [hf] at hig
      rcases ih step arch f ig hig with h | h
      · exact Or.inl h
      · exact Or.inr (List.mem_cons_of_mem g h)
    | some impl =>
      rw [hf] at hig
      rcases ih { step with implemented_gates := igInsert step.implemented_gates ⟨g, impl⟩ }
        arch f ig hig with h | h
      · rcases igInsert_mem _ _ _ h with h' | h'
        · exact Or.inr (by rw [h']; exact List.mem_cons_self g rest)
        · exact Or.inl h'
      · exact Or.inr (List.mem_cons_of_mem g h)

/-- C10: `max_step` only adds implemented gates — starting from a step with an
empty implemented set (the assertion at the top of `max_step`), the qubit
mapping is unchanged and every recorded pair's gate is drawn from the
executable list. -/
theorem max_step_frame {G A : Type} [DecidableEq G] (step : Step G)
    (executable : List Gate) (arch : A)
    (implement_gate : Step G → A → Gate → Option G)
    (hempty : step.implemented_gates = []) :
    (step.max_step executable arch implement_gate).map = step.map ∧
      ∀ ig ∈ (step.max_step executable arch implement_gate).implemented_gates,
        ig.gate ∈ executable := by
  refine ⟨max_step_map_unchanged executable step arch implement_gate, ?_⟩
  intro ig hig
  rcases max_step_gates_from executable step arch implement_gate ig hig with h | h
  · rw [hempty] at h
    exact absurd h (List.not_mem_nil ig)
  · exact h

/-- C10, witness: `max_step_frame` evaluated on a one-gate executable with a
plug-in that always implements. -/
theorem max_step_frame_witness :
    (Step.max_step (G := Unit) (A := Unit) ⟨[(0, 0)], []⟩
        [⟨GateType.CX, [0, 1], 0⟩] () (fun _ _ _ => some ())).map = [(0, 0)] ∧
      ∀ ig ∈ (Step.max_step (G := Unit) (A := Unit) ⟨[(0, 0)], []⟩
          [⟨GateType.CX, [0, 1], 0⟩] () (fun _ _ _ => some ())).implemented_gates,
        ig.gate ∈ [⟨GateType.CX, [0, 1], 0⟩] :=
  max_step_frame ⟨[(0, 0)], []⟩ [⟨GateType.CX, [0, 1], 0⟩] ()
    (fun _ _ _ => some ()) rfl

/-! ## Routing-loop lemmas (C7, C2) -/

theorem pick_ne_none {G A : Type} (env : RouteEnv G A) (c : Circuit)
    (last_step : Step G) (best : Option (Step G × Transition G A × ℚ))
    (t : Transition G A) :
    (match best with
      | some (_, _, b) =>
        if (scoreCandidate env c last_step t).2.2 < b then
          some (scoreCandidate env c last_step t)
        else best
      | none => some (scoreCandidate env c last_step t)) ≠ none := by
  rcases best with _ | ⟨s, t', b⟩
  · simp
  · by_cases hlt : (scoreCandidate env c last_step t).2.2 < b <;> simp [hlt]

theorem foldl_pick_some {G A : Type} (env : RouteEnv G A) (c : Circuit)
    (last_step : Step G) :
    ∀ (l : List (Transition G A)) (x : Step G × Transition G A × ℚ),
      l.foldl
        (fun best t =>
          match best with
          | some (_, _, b) =>
            if (scoreCandidate env c last_step t).2.2 < b then
              some (scoreCandidate env c last_step t)
            else best
          | none => some (scoreCandidate env c last_step t))
        (some x) ≠ none := by
  intro l
  induction l with
  | nil => intro x h; exact Option.noConfusion h
  | cons t l ih =>
    intro x
    rw [List.foldl_cons]
    by_cases hlt : (scoreCandidate env c last_step t).2.2 < x.2.2
    · rcases x with ⟨s, t', b⟩
      simpa [hlt] using ih _
    · rcases x with ⟨s, t', b⟩
      simpa [hlt] using ih _

/-- The function `find_best_next_step` returns `none` exactly when the transition
generator produced no transition at all (each produced transition always
yields a scored candidate). -/
theorem find_best_none_iff {G A : Type} (env : RouteEnv G A) (c : Circuit)
    (last_step : Step G) :
    find_best_next_step env c last_step = none ↔ env.transitions last_step = [] := by
  unfold find_best_next_step
  cases hl : env.transitions last_step with
  | nil => simp
  | cons t l =>
    simp only [List.foldl_cons]
    constructor
    · intro h
      exact absurd h (foldl_pick_some env c last_step l _)
    · intro h
      exact List.noConfusion h

theorem foldl_pick_prop {G A : Type} (env : RouteEnv G A) (c : Circuit)
    (last_step : Step G) (P : Step G × Transition G A × ℚ → Prop) :
    ∀ (l : List (Transition G A)) (acc : Option (Step G × Transition G A × ℚ)),
      (∀ x, acc = some x → P x) →
      (∀ t ∈ l, P (scoreCandidate env c last_step t)) →
      ∀ x,
        l.foldl
          (fun best t =>
            match best with
            | some (_, _, b) =>
              if (scoreCandidate env c last_step t).2.2 < b then
                some (scoreCandidate env c last_step t)
              else best
            | none => some (scoreCandidate env c last_step t))
          acc = some x → P x := by
  intro l
  induction l with
  | nil => intro acc hacc _ x hx; exact hacc x hx
  | cons t l ih =>
    intro acc hacc hl x hx
    rw [List.foldl_cons] at hx
    refine ih _ ?_ (fun t' ht' => hl t' (List.mem_cons_of_mem t ht')) x hx
    intro y hy
    rcases acc with _ | ⟨s, t', b⟩
    · simp only at hy
      exact (Option.some_inj.mp hy) ▸ hl t (List.mem_cons_self t l)
    · simp only at hy
      by_cases hlt : (scoreCandidate env c last_step t).2.2 < b
      · rw [if_pos hlt] at hy
        exact (Option.some_inj.mp hy) ▸ hl t (List.mem_cons_self t l)
      · rw [if_neg hlt] at hy
        exact hacc y hy

/-- Every successful `find_best_next_step` result consists of a transition
taken from the generator's output and the maximization of its application to
the last step. -/
theorem find_best_some_shape {G A : Type} (env : RouteEnv G A) (c : Circuit)
    (last_step : Step G) (x : Step G × Transition G A × ℚ)
    (hx : find_best_next_step env c last_step = some x) :
    x.2.1 ∈ env.transitions last_step ∧
      x.1 = env.maximize (x.2.1.apply last_step) c.get_front_layer := by
  unfold find_best_next_step at hx
  refine foldl_pick_prop env c last_step
    (fun y => y.2.1 ∈ env.transitions last_step ∧
      y.1 = env.maximize (y.2.1.apply last_step) c.get_front_layer)
    (env.transitions last_step) none (fun y hy => Option.noConfusion hy) ?_ x hx
  intro t ht
  exact ⟨ht, rfl⟩

/-- The routing loop aborts with the fatal "no valid next step" error
exactly when some reachable loop state still has unscheduled gates while the
transition generator returns no transition from its last step (the only way
no maximized next step exists). -/
theorem routeAux_error_iff {G A : Type} (env : RouteEnv G A) :
    ∀ (fuel : ℕ) (current : Circuit) (stepsAcc : List (Step G)) (last : Step G)
      (transAcc : List String) (cost : ℚ),
      routeAux env fuel current stepsAcc last transAcc cost =
          .error RouteErr.noValidNextStep ↔
        ∃ k, k < fuel ∧ ∃ p, routeIter env k (current, last) = some p ∧
          p.1.gates ≠ [] ∧ env.transitions p.2 = [] := by
  intro fuel
  induction fuel with
  | zero =>
    intro current stepsAcc last transAcc cost
    constructor
    · intro h
      exact absurd h (by rw [routeAux]; intro hh; exact RouteErr.noConfusion (Except.error.inj hh))
    · rintro ⟨k, hk, _⟩
      exact absurd hk (Nat.not_lt_zero k)
  | succ fuel ih =>
    intro current stepsAcc last transAcc cost
    rw [routeAux]
    by_cases hempty : current.gates.isEmpty
    · rw [if_pos hempty]
      constructor
      · intro h; exact Except.noConfusion h
      · rintro ⟨k, hk, p, hp, hne, _⟩
        cases k with
        | zero =>
          rw [routeIter] at hp
          cases Option.some_inj.mp hp
          exact absurd (List.isEmpty_iff.mp hempty) hne
        | succ k' =>
          rw [routeIter] at hp
          unfold routeStepOnce at hp
          rw [if_pos hempty] at hp
          exact Option.noConfusion hp
    · rw [if_neg hempty]
      cases hfb : find_best_next_step env current last with
      | none =>
        constructor
        · intro _
          refine ⟨0, Nat.succ_pos fuel, (current, last), rfl, ?_, ?_⟩
          · intro hh
            exact hempty (List.isEmpty_iff.mpr hh)
          · exact (find_best_none_iff env current last).mp hfb
        · intro _; rfl
      | some x =>
        rcases x with ⟨s, t, b⟩
        rw [ih]
        constructor
        · rintro ⟨k, hk, p, hp, hne, htr⟩
          refine ⟨k + 1, Nat.succ_lt_succ hk, p, ?_, hne, htr⟩
          rw [routeIter]
          unfold routeStepOnce
          rw [if_neg hempty, hfb]
          exact hp
        · rintro ⟨k, hk, p, hp, hne, htr⟩
          cases k with
          | zero =>
            rw [routeIter] at hp
            cases Option.some_inj.mp hp
            have : env.transitions last ≠ [] := by
              intro hh
              rw [← find_best_none_iff env current last] at hh
              rw [hfb] at hh
              exact Option.noConfusion hh
            exact absurd htr this
          | succ k' =>
            refine ⟨k', Nat.lt_of_succ_lt_succ hk, p, ?_, hne, htr⟩
            rw [routeIter] at hp
            unfold routeStepOnce at hp
            rw [if_neg hempty, hfb] at hp
            exact hp

/-- C7 at the level of `route`: a returned result never aborts, and the abort
surfaces exactly when a reachable loop state is stuck. -/
theorem route_aborts_iff_stuck {G A : Type} (env : RouteEnv G A) (c : Circuit)
    (map : QubitMap) (fuel : ℕ) :
    route env c map fuel = .error RouteErr.noValidNextStep ↔
      ∃ k, k < fuel ∧ ∃ p,
        routeIter env k
          (c.remove_gates (env.maximize ⟨map, []⟩ c.get_front_layer).gates,
            env.maximize ⟨map, []⟩ c.get_front_layer) = some p ∧
        p.1.gates ≠ [] ∧ env.transitions p.2 = [] := by
  unfold route
  exact routeAux_error_iff env fuel _ [] _ [] _

/-- Cost decomposition of a successful routing loop: the final cost is the
accumulator plus the step costs of the steps appended after `last` plus the
costs of the transitions taken (recovered from their tags through `cf`). -/
theorem routeAux_ok_decomp {G A : Type} (env : RouteEnv G A) (cf : String → ℚ)
    (hcf : ∀ (s : Step G) (t : Transition G A), t ∈ env.transitions s →
      cf t.repr = t.cost env.arch) :
    ∀ (fuel : ℕ) (current : Circuit) (stepsAcc : List (Step G)) (last : Step G)
      (transAcc : List String) (cost : ℚ) (res : CompilerResult G),
      routeAux env fuel current stepsAcc last transAcc cost = .ok res →
      ∃ restSteps restTags,
        res.steps = stepsAcc ++ last :: restSteps ∧
        res.transitions = transAcc ++ restTags ∧
        res.cost = cost +
          ((restSteps.map (fun s => env.step_cost s env.arch)).sum +
            (restTags.map cf).sum) := by
  intro fuel
  induction fuel with
  | zero =>
    intro current stepsAcc last transAcc cost res h
    rw [routeAux] at h
    exact Except.noConfusion h
  | succ fuel ih =>
    intro current stepsAcc last transAcc cost res h
    rw [routeAux] at h
    by_cases hempty : current.gates.isEmpty
    · rw [if_pos hempty] at h
      cases Except.ok.inj h
      exact ⟨[], [], by simp, by simp, by simp⟩
    · rw [if_neg hempty] at h
      cases hfb : find_best_next_step env current last with
      | none =>
        rw [hfb] at h
        exact Except.noConfusion h
      | some x =>
        rcases x with ⟨s, t, b⟩
        rw [hfb] at h
        obtain ⟨restSteps, restTags, hsteps, htags, hcost⟩ := ih _ _ _ _ _ _ h
        have htmem : t ∈ env.transitions last :=
          (find_best_some_shape env current last (s, t, b) hfb).1
        refine ⟨s :: restSteps, t.repr :: restTags, ?_, ?_, ?_⟩
        · rw [hsteps]; simp
        · rw [htags]; simp
        · rw [hcost, List.map_cons, List.sum_cons, List.map_cons, List.sum_cons,
            hcf last t htmem]
          ring

/-- C2, amended: the returned cost equals the step cost of the **initial,
pre-maximization** step (empty implemented set) plus the step costs of all
subsequent steps in their final state plus the costs of the transitions
taken. -/
theorem route_cost_decomposition {G A : Type} (env : RouteEnv G A)
    (cf : String → ℚ)
    (hcf : ∀ (s : Step G) (t : Transition G A), t ∈ env.transitions s →
      cf t.repr = t.cost env.arch)
    (c : Circuit) (map : QubitMap) (fuel : ℕ) (res : CompilerResult G)
    (hres : route env c map fuel = .ok res) :
    res.cost = env.step_cost ⟨map, []⟩ env.arch +
      (((res.steps.drop 1).map (fun s => env.step_cost s env.arch)).sum +
        (res.transitions.map cf).sum) := by
  unfold route at hres
  obtain ⟨restSteps, restTags, hsteps, htags, hcost⟩ :=
    routeAux_ok_decomp env cf hcf fuel _ [] _ [] _ res hres
  rw [hcost, hsteps, htags]
  simp

/-! ## C2: concrete instances -/

/-- A one-gate circuit for exercising `route`. -/
def circC2 : Circuit := { gates := [⟨GateType.CX, [0, 1], 0⟩], qubits := [0, 1] }

/-- A plug-in whose step cost counts implemented gates and whose transition
generator is empty; the single gate is realized in the initial step, so the
generator is never consulted. -/
def envC2 : RouteEnv Unit Unit :=
  { arch := ()
    transitions := fun _ => []
    maximize := fun s ex => s.max_step ex () (fun _ _ _ => some ())
    step_cost := fun s _ => if s.implemented_gates.isEmpty then 0 else 1
    map_eval := fun _ _ => 0
    crit_table := build_criticality_table circC2 }

/-- The result `route` produces on `envC2` / `circC2`: one maximized step,
no transitions, and cost `0` — the initial step's cost was taken while the
step was still empty. -/
def resC2 : CompilerResult Unit :=
  { steps := [⟨[], [⟨⟨GateType.CX, [0, 1], 0⟩, ()⟩]⟩]
    transitions := []
    cost := 0 }

/-- C2, counterexample: the returned cost (`0`) differs from the sum of the
step costs of the result's steps in their final maximized state (`1`) plus
the (empty) transition costs, because the initial step's cost is evaluated
before maximization. -/
theorem route_cost_omits_initial_maximization :
    route envC2 circC2 [] 5 = Except.ok resC2 ∧
      resC2.transitions = [] ∧
      resC2.cost ≠
        (resC2.steps.map (fun s => envC2.step_cost s envC2.arch)).sum := by
  refine ⟨rfl, rfl, ?_⟩
  norm_num [resC2, envC2, List.isEmpty]

/-- A two-gate sequential circuit forcing one transition to be taken. -/
def circW2 : Circuit :=
  { gates := [⟨GateType.CX, [0, 1], 0⟩, ⟨GateType.CX, [0, 1], 1⟩],
    qubits := [0, 1] }

/-- The identity-style transition of the witness plug-in, with tag "id" and
cost `1`. -/
def idTransW : Transition Unit Unit :=
  { apply := fun s => ⟨s.map, []⟩, repr := "id", cost := fun _ => 1 }

/-- Witness plug-in: one transition, always-implementable gates, per-step
cost `1` once nonempty. -/
def envW2 : RouteEnv Unit Unit :=
  { arch := ()
    transitions := fun _ => [idTransW]
    maximize := fun s ex => s.max_step ex () (fun _ _ _ => some ())
    step_cost := fun s _ => if s.implemented_gates.isEmpty then 0 else 1
    map_eval := fun _ _ => 0
    crit_table := build_criticality_table circW2 }

/-- The result `route` produces on `envW2` / `circW2`. -/
def resW2 : CompilerResult Unit :=
  { steps := [⟨[], [⟨⟨GateType.CX, [0, 1], 0⟩, ()⟩]⟩,
              ⟨[], [⟨⟨GateType.CX, [0, 1], 1⟩, ()⟩]⟩]
    transitions := ["id"]
    cost := 2 }

/-- C2, witness: the amended cost decomposition evaluated on a run that takes
one transition — `2 = 0 (empty initial step) + 1 (second step) + 1
(transition)`. -/
theorem route_cost_decomposition_witness :
    resW2.cost = envW2.step_cost ⟨[], []⟩ envW2.arch +
      (((resW2.steps.drop 1).map (fun s => envW2.step_cost s envW2.arch)).sum +
        (resW2.transitions.map (fun _ => (1 : ℚ))).sum) :=
  route_cost_decomposition envW2 (fun _ => 1)
    (fun s t ht => by
      have h := List.mem_singleton.mp ht
      rw [h]
      rfl)
    circW2 [] 5 resW2 (by with_unfolding_all rfl)

/-! ## C1: zero-cost isomorphism map makes solve panic -/

/-- C1: whenever the subgraph-isomorphism search reports a map whose
heuristic cost is `0`, `solve` skips the annealing search (`sa_map = None`)
and then crashes on `sa_map.unwrap()` in the selection `match` — it never
routes with the isomorphism map. -/
theorem solve_panics_on_zero_cost_isomorphism {G A : Type} [DecidableEq G]
    (c : Circuit) (locations : List Location) (arch : A)
    (transitions : Step G → List (Transition G A))
    (maximize : Step G → List Gate → Step G) (step_cost : Step G → A → ℚ)
    (heuristic : A → Circuit → QubitMap → ℚ) (m : QubitMap)
    (expFn : ℚ → ℚ) (saFuel routeFuel : ℕ) (rng : Rng)
    (hzero : heuristic arch c m = 0) :
    solve c locations arch transitions maximize step_cost (some heuristic)
      (some m) expFn saFuel routeFuel rng = (.error SolveErr.panicUnwrap, rng) := by
  simp [solve, hzero, unwrapO]

/-- C1, witness: a concrete zero-cost isomorphism instance panics. -/
theorem solve_panics_on_zero_cost_isomorphism_witness :
    solve (G := Unit) (A := Unit) circC2 [0, 1] () (fun _ => []) (fun s _ => s)
      (fun _ _ => 0) (some (fun _ _ _ => 0)) (some [(0, 0), (1, 1)]) id 3 5
      ⟨[], []⟩ = (.error SolveErr.panicUnwrap, ⟨[], []⟩) :=
  solve_panics_on_zero_cost_isomorphism circC2 [0, 1] () (fun _ => [])
    (fun s _ => s) (fun _ _ => 0) (fun _ _ _ => 0) [(0, 0), (1, 1)] id 3 5
    ⟨[], []⟩ rfl

/-! ## C8: what the scheduling result does and does not depend on -/

theorem headD_congr_of_take_succ {α : Type} (d : α) {l₁ l₂ : List α} {k : ℕ}
    (h : l₁.take (k + 1) = l₂.take (k + 1)) : l₁.headD d = l₂.headD d := by
  cases l₁ with
  | nil =>
    cases l₂ with
    | nil => rfl
    | cons b t => simp [List.take_succ_cons] at h
  | cons a s =>
    cases l₂ with
    | nil => simp [List.take_succ_cons] at h
    | cons b t =>
      simp only [List.take_succ_cons, List.cons.injEq] at h
      simp [h.1]

theorem tail_take_congr_of_take_succ {α : Type} {l₁ l₂ : List α} {k : ℕ}
    (h : l₁.take (k + 1) = l₂.take (k + 1)) : l₁.tail.take k = l₂.tail.take k := by
  cases l₁ with
  | nil =>
    cases l₂ with
    | nil => rfl
    | cons b t => simp [List.take_succ_cons] at h
  | cons a s =>
    cases l₂ with
    | nil => simp [List.take_succ_cons] at h
    | cons b t =>
      simp only [List.take_succ_cons, List.cons.injEq] at h
      simpa using h.2

theorem take_congr_of_le {α : Type} {l₁ l₂ : List α} {m n : ℕ} (hmn : m ≤ n)
    (h : l₁.take n = l₂.take n) : l₁.take m = l₂.take m := by
  have h₁ : l₁.take m = (l₁.take n).take m := by
    rw [List.take_take, Nat.min_eq_left hmn]
  have h₂ : l₂.take m = (l₂.take n).take m := by
    rw [List.take_take, Nat.min_eq_left hmn]
  rw [h₁, h₂, h]

theorem drop_take_congr {α : Type} {l₁ l₂ : List α} (j s : ℕ)
    (h : l₁.take (j + s) = l₂.take (j + s)) :
    (l₁.drop j).take s = (l₂.drop j).take s := by
  rw [List.take_drop, List.take_drop, h]

/-- Unfolding equation of `sampleDistinct` on a nonempty pool. -/
theorem sampleDistinct_unfold (k : ℕ) (p : Location) (ps : List Location)
    (rng : Rng) :
    sampleDistinct (k + 1) (p :: ps) rng =
      ((p :: ps).getD (rng.nextNat.1 % (p :: ps).length) 0 ::
        (sampleDistinct k ((p :: ps).eraseIdx (rng.nextNat.1 % (p :: ps).length))
          rng.nextNat.2).1,
       (sampleDistinct k ((p :: ps).eraseIdx (rng.nextNat.1 % (p :: ps).length))
          rng.nextNat.2).2) := rfl

/-- The locations drawn by `sampleDistinct` depend only on the first `k`
index draws of the stream. -/
theorem sampleDistinct_fst_congr :
    ∀ (k : ℕ) (pool : List Location) (rng₁ rng₂ : Rng),
      rng₁.nats.take k = rng₂.nats.take k →
      (sampleDistinct k pool rng₁).1 = (sampleDistinct k pool rng₂).1 := by
  intro k
  induction k with
  | zero => intro pool rng₁ rng₂ _; rfl
  | succ k ih =>
    intro pool rng₁ rng₂ h
    cases pool with
    | nil => rfl
    | cons p ps =>
      have hhead : rng₁.nextNat.1 = rng₂.nextNat.1 := headD_congr_of_take_succ 0 h
      have htail : rng₁.nextNat.2.nats.take k = rng₂.nextNat.2.nats.take k :=
        tail_take_congr_of_take_succ h
      rw [sampleDistinct_unfold, sampleDistinct_unfold, hhead]
      exact congrArg (List.cons _) (ih _ _ _ htail)

/-- The stream state `sampleDistinct` returns: exactly `min k pool.length`
index draws are consumed and no rational draws. -/
theorem sampleDistinct_snd :
    ∀ (k : ℕ) (pool : List Location) (rng : Rng),
      (sampleDistinct k pool rng).2 =
        ⟨rng.nats.drop (min k pool.length), rng.rats⟩ := by
  intro k
  induction k with
  | zero =>
    intro pool rng
    have h0 : min 0 pool.length = 0 := by omega
    rw [h0]
    rfl
  | succ k ih =>
    intro pool rng
    cases pool with
    | nil =>
      have h0 : min (k + 1) (List.length ([] : List Location)) = 0 := by
        simp
      rw [h0]
      rfl
    | cons p ps =>
      rw [sampleDistinct_unfold]
      show (sampleDistinct k
          ((p :: ps).eraseIdx (rng.nextNat.1 % (p :: ps).length)) rng.nextNat.2).2 = _
      rw [ih]
      have hlen : ((p :: ps).eraseIdx (rng.nextNat.1 % (p :: ps).length)).length =
          ps.length := by
        rw [List.length_eraseIdx_of_lt (Nat.mod_lt _ (by simp))]
        rfl
      have hnats : rng.nextNat.2.nats = rng.nats.tail := rfl
      have hrats : rng.nextNat.2.rats = rng.rats := rfl
      have harg : 1 + min k ps.length = min (k + 1) (p :: ps).length := by
        simp only [List.length_cons]
        omega
      rw [hlen, hnats, hrats, ← List.drop_one, List.drop_drop, harg]

/-- Unfolding equation of `random_map` in terms of `sampleDistinct`. -/
theorem random_map_eq (c : Circuit) (locations : List Location) (rng : Rng) :
    random_map c locations rng =
      ((c.qubits.zip (sampleDistinct c.qubits.length locations rng).1).foldl
         (fun m p => qmInsert m p.1 p.2) [],
       (sampleDistinct c.qubits.length locations rng).2) := by
  cases h : sampleDistinct c.qubits.length locations rng with
  | mk v r => simp only [random_map, h]

/-- The random initial map depends only on the first `c.qubits.length` index
draws of the stream. -/
theorem random_map_fst_congr (c : Circuit) (locations : List Location)
    (rng₁ rng₂ : Rng)
    (h : rng₁.nats.take c.qubits.length = rng₂.nats.take c.qubits.length) :
    (random_map c locations rng₁).1 = (random_map c locations rng₂).1 := by
  rw [random_map_eq, random_map_eq,
    sampleDistinct_fst_congr c.qubits.length locations rng₁ rng₂ h]

/-- The stream state `random_map` returns. -/
theorem random_map_snd (c : Circuit) (locations : List Location) (rng : Rng) :
    (random_map c locations rng).2 =
      ⟨rng.nats.drop (min c.qubits.length locations.length), rng.rats⟩ := by
  rw [random_map_eq]
  show (sampleDistinct c.qubits.length locations rng).2 = _
  rw [sampleDistinct_snd]

/-- Unfolding equation of `random_neighbor` on a nonempty move list. -/
theorem random_neighbor_cons_eq (m : QubitMap) (locs : List Location)
    (rng : Rng) (a : AnnealMove) (rest : List AnnealMove)
    (h : genMoves m locs = a :: rest) :
    random_neighbor m locs rng =
      (applyMove m ((genMoves m locs).getD
          (rng.nats.headD 0 % (genMoves m locs).length) (AnnealMove.intoOpen 0 0)),
       ⟨rng.nats.tail, rng.rats⟩) := by
  unfold random_neighbor
  rw [h]
  rfl

/-- Every annealing neighbour draw consumes exactly one index draw and no
rational draw. -/
theorem random_neighbor_snd (m : QubitMap) (locations : List Location)
    (rng : Rng) :
    (random_neighbor m locations rng).2 = ⟨rng.nats.tail, rng.rats⟩ := by
  cases h : genMoves m locations with
  | nil =>
    unfold random_neighbor
    rw [h]
    rfl
  | cons a rest =>
    rw [random_neighbor_cons_eq m locations rng a rest h]

/-- The chosen annealing neighbour depends only on the first index draw of
the stream. -/
theorem random_neighbor_fst_congr (m : QubitMap) (locations : List Location)
    (rng₁ rng₂ : Rng) (h : rng₁.nats.headD 0 = rng₂.nats.headD 0) :
    (random_neighbor m locations rng₁).1 = (random_neighbor m locations rng₂).1 := by
  cases hg : genMoves m locations with
  | nil =>
    unfold random_neighbor
    rw [hg]
  | cons a rest =>
    rw [random_neighbor_cons_eq m locations rng₁ a rest hg,
      random_neighbor_cons_eq m locations rng₂ a rest hg, h]

/-- The annealing search over mappings depends on the stream only through its
first `fuel` index draws and first `fuel` acceptance draws: each loop
iteration consumes exactly one of each. -/
theorem simulated_anneal_fst_congr (term cool : ℚ) (locs : List Location)
    (cost : QubitMap → ℚ) (expFn : ℚ → ℚ) :
    ∀ (fuel : ℕ) (temp : ℚ) (best : QubitMap) (bc : ℚ) (curr : QubitMap)
      (cc : ℚ) (rng₁ rng₂ : Rng),
      rng₁.nats.take fuel = rng₂.nats.take fuel →
      rng₁.rats.take fuel = rng₂.rats.take fuel →
      (simulated_anneal term cool (fun m r => random_neighbor m locs r) cost expFn
          fuel temp best bc curr cc rng₁).1 =
        (simulated_anneal term cool (fun m r => random_neighbor m locs r) cost expFn
          fuel temp best bc curr cc rng₂).1 := by
  intro fuel
  induction fuel with
  | zero => intro temp best bc curr cc rng₁ rng₂ _ _; rfl
  | succ fuel ih =>
    intro temp best bc curr cc rng₁ rng₂ hn hr
    have hnext := random_neighbor_fst_congr curr locs rng₁ rng₂
      (headD_congr_of_take_succ 0 hn)
    have hs₁ := random_neighbor_snd curr locs rng₁
    have hs₂ := random_neighbor_snd curr locs rng₂
    have hnt : rng₁.nats.tail.take fuel = rng₂.nats.tail.take fuel :=
      tail_take_congr_of_take_succ hn
    have hrt : rng₁.rats.tail.take fuel = rng₂.rats.tail.take fuel :=
      tail_take_congr_of_take_succ hr
    have hrhead : rng₁.rats.headD 0 = rng₂.rats.headD 0 :=
      headD_congr_of_take_succ 0 hr
    rcases hN₁ : random_neighbor curr locs rng₁ with ⟨next₁, r₁⟩
    rcases hN₂ : random_neighbor curr locs rng₂ with ⟨next₂, r₂⟩
    rw [hN₁] at hnext hs₁
    rw [hN₂] at hnext hs₂
    simp only at hnext hs₁ hs₂
    simp only [simulated_anneal, hN₁, hN₂, Rng.nextRat, hnext, hs₁, hs₂]
    by_cases ht : temp > term
    · rw [if_pos ht, if_pos ht]
      by_cases hdb : cost next₂ - bc < 0
      · rw [if_pos hdb, if_pos hdb]
        exact ih _ _ _ _ _ _ _ hnt hrt
      · rw [if_neg hdb, if_neg hdb, hrhead]
        by_cases hacc : rng₂.rats.headD 0 < expFn (-(cost next₂ - cc) / temp)
        · rw [if_pos hacc, if_pos hacc]
          exact ih _ _ _ _ _ _ _ hnt hrt
        · rw [if_neg hacc, if_neg hacc]
          exact ih _ _ _ _ _ _ _ hnt hrt
    · rw [if_neg ht, if_neg ht]

/-- The initial-mapping pipeline (random start map, then annealing) depends
on the stream only through the first `c.qubits.length + saFuel` index draws
and the first `saFuel` acceptance draws. -/
theorem anneal_pipeline_fst_congr (c : Circuit) (locations : List Location)
    (map_h : QubitMap → ℚ) (expFn : ℚ → ℚ) (saFuel : ℕ) (rng₁ rng₂ : Rng)
    (hn : rng₁.nats.take (c.qubits.length + saFuel) =
      rng₂.nats.take (c.qubits.length + saFuel))
    (hr : rng₁.rats.take saFuel = rng₂.rats.take saFuel) :
    (sim_anneal_mapping_search locations (random_map c locations rng₁).1 map_h
        expFn saFuel (random_map c locations rng₁).2).1 =
      (sim_anneal_mapping_search locations (random_map c locations rng₂).1 map_h
        expFn saFuel (random_map c locations rng₂).2).1 := by
  have hm : (random_map c locations rng₁).1 = (random_map c locations rng₂).1 :=
    random_map_fst_congr c locations rng₁ rng₂
      (take_congr_of_le (Nat.le_add_right _ _) hn)
  have hA : (rng₁.nats.drop (min c.qubits.length locations.length)).take saFuel =
      (rng₂.nats.drop (min c.qubits.length locations.length)).take saFuel :=
    drop_take_congr _ saFuel (take_congr_of_le (by omega) hn)
  rw [hm, random_map_snd, random_map_snd]
  unfold sim_anneal_mapping_search
  exact simulated_anneal_fst_congr TERM_TEMP COOL_RATE locations map_h expFn
    saFuel INITIAL_TEMP _ _ _ _ _ _ hA hr

/-- The stream state of the thread-local generator at the start of the C8
counterexample's pair of successive runs. -/
def rngC8 : Rng := ⟨[1, 0], []⟩

/-- The step maximizer of the C8 runs: every executable gate is
implementable. -/
def maxC8 : Step Unit → List Gate → Step Unit :=
  fun s ex => s.max_step ex () (fun _ _ _ => some ())

/-- The compilation result the first of the two successive runs returns:
qubit 0 is mapped to location 1 and qubit 1 to location 0. -/
def resRunA : CompilerResult Unit :=
  { steps := [⟨[(1, 0), (0, 1)], [⟨⟨GateType.CX, [0, 1], 0⟩, ()⟩]⟩],
    transitions := [], cost := 0 }

/-- The compilation result the second run returns: the identity mapping. -/
def resRunB : CompilerResult Unit :=
  { steps := [⟨[(1, 1), (0, 0)], [⟨⟨GateType.CX, [0, 1], 0⟩, ()⟩]⟩],
    transitions := [], cost := 0 }

/-- C8, counterexample: the program has no RNG seed, only the entropy-seeded
thread-local generator that successive calls keep consuming, so "two runs
with the same seed" are two successive `solve` calls on one thread: the
second call starts from the stream state the first call returns.  On the same
circuit, architecture, and plug-in callbacks the two runs return different
results (different initial mappings, hence different step mappings). -/
theorem solve_reruns_on_same_thread_generator_differ :
    (solve (G := Unit) (A := Unit) circC2 [0, 1] () (fun _ => []) maxC8
        (fun _ _ => 0) none none id 0 5 rngC8).1 = Except.ok resRunA ∧
    (solve (G := Unit) (A := Unit) circC2 [0, 1] () (fun _ => []) maxC8
        (fun _ _ => 0) none none id 0 5
        ((solve (G := Unit) (A := Unit) circC2 [0, 1] () (fun _ => []) maxC8
          (fun _ _ => 0) none none id 0 5 rngC8).2)).1 = Except.ok resRunB ∧
    resRunA ≠ resRunB :=
  ⟨by with_unfolding_all rfl, by with_unfolding_all rfl, by decide⟩

/-- C8, amended: within one compilation, scheduling is deterministic only
relative to the randomness actually consumed and the watchdog report: the
result of `solve` is a function of the declared inputs, the isomorphism
report, the first `c.qubits.length + saFuel` index draws, and the first
`saFuel` acceptance draws of the thread-local generator's stream — two
streams agreeing on that consumed prefix, however much they differ beyond
it, give identical compilation results. -/
theorem solve_result_determined_by_consumed_draws {G A : Type} [DecidableEq G]
    (c : Circuit) (locations : List Location) (arch : A)
    (transitions : Step G → List (Transition G A))
    (maximize : Step G → List Gate → Step G) (step_cost : Step G → A → ℚ)
    (mapping_heuristic : Option (A → Circuit → QubitMap → ℚ))
    (isomMap : Option QubitMap) (expFn : ℚ → ℚ) (saFuel routeFuel : ℕ)
    (rng₁ rng₂ : Rng)
    (hn : rng₁.nats.take (c.qubits.length + saFuel) =
      rng₂.nats.take (c.qubits.length + saFuel))
    (hr : rng₁.rats.take saFuel = rng₂.rats.take saFuel) :
    (solve c locations arch transitions maximize step_cost mapping_heuristic
        isomMap expFn saFuel routeFuel rng₁).1 =
      (solve c locations arch transitions maximize step_cost mapping_heuristic
        isomMap expFn saFuel routeFuel rng₂).1 := by
  cases mapping_heuristic with
  | none =>
    have hm : (random_map c locations rng₁).1 = (random_map c locations rng₂).1 :=
      random_map_fst_congr c locations rng₁ rng₂
        (take_congr_of_le (Nat.le_add_right _ _) hn)
    rcases hR₁ : random_map c locations rng₁ with ⟨m₁, r₁⟩
    rcases hR₂ : random_map c locations rng₂ with ⟨m₂, r₂⟩
    rw [hR₁, hR₂] at hm
    simp only at hm
    simp only [solve, hR₁, hR₂, hm]
  | some heuristic =>
    cases isomMap with
    | none =>
      have hp := anneal_pipeline_fst_congr c locations
        (fun m => heuristic arch c m) expFn saFuel rng₁ rng₂ hn hr
      have hm : (random_map c locations rng₁).1 = (random_map c locations rng₂).1 :=
        random_map_fst_congr c locations rng₁ rng₂
          (take_congr_of_le (Nat.le_add_right _ _) hn)
      rcases hR₁ : random_map c locations rng₁ with ⟨s₁, r₁⟩
      rcases hR₂ : random_map c locations rng₂ with ⟨s₂, r₂⟩
      rw [hR₁, hR₂] at hm hp
      simp only at hm hp
      rcases hS₁ : sim_anneal_mapping_search locations s₁
          (fun m => heuristic arch c m) expFn saFuel r₁ with ⟨m₁, t₁⟩
      rcases hS₂ : sim_anneal_mapping_search locations s₂
          (fun m => heuristic arch c m) expFn saFuel r₂ with ⟨m₂, t₂⟩
      rw [hS₁, hS₂] at hp
      simp only at hp
      simp only [solve, hR₁, hR₂, hS₁, hS₂, hp, Option.map_none', unwrapO]
    | some im =>
      by_cases h0 : heuristic arch c im = 0
      · simp [solve, h0, unwrapO]
      · have hp := anneal_pipeline_fst_congr c locations
          (fun m => heuristic arch c m) expFn saFuel rng₁ rng₂ hn hr
        have hm : (random_map c locations rng₁).1 = (random_map c locations rng₂).1 :=
          random_map_fst_congr c locations rng₁ rng₂
            (take_congr_of_le (Nat.le_add_right _ _) hn)
        rcases hR₁ : random_map c locations rng₁ with ⟨s₁, r₁⟩
        rcases hR₂ : random_map c locations rng₂ with ⟨s₂, r₂⟩
        rw [hR₁, hR₂] at hm hp
        simp only at hm hp
        rcases hS₁ : sim_anneal_mapping_search locations s₁
            (fun m => heuristic arch c m) expFn saFuel r₁ with ⟨m₁, t₁⟩
        rcases hS₂ : sim_anneal_mapping_search locations s₂
            (fun m => heuristic arch c m) expFn saFuel r₂ with ⟨m₂, t₂⟩
        rw [hS₁, hS₂] at hp
        simp only at hp
        simp only [solve, hR₁, hR₂, hS₁, hS₂, hp, Option.map_some', unwrapO,
          if_neg h0]
        by_cases hlt : heuristic arch c im < heuristic arch c m₂
        · rw [if_pos hlt]
        · rw [if_neg hlt]

/-- C8, amended theorem witness: two concrete streams that agree on the
consumed prefix but differ beyond it yield the same compilation result. -/
theorem solve_result_determined_by_consumed_draws_witness :
    (solve (G := Unit) (A := Unit) circC2 [0, 1] () (fun _ => []) maxC8
        (fun _ _ => 0) none none id 0 5 ⟨[1, 0, 7], [5]⟩).1 =
      (solve (G := Unit) (A := Unit) circC2 [0, 1] () (fun _ => []) maxC8
        (fun _ _ => 0) none none id 0 5 ⟨[1, 0, 9], [6]⟩).1 :=
  solve_result_determined_by_consumed_draws circC2 [0, 1] () (fun _ => []) maxC8
    (fun _ _ => 0) none none id 0 5 ⟨[1, 0, 7], [5]⟩ ⟨[1, 0, 9], [6]⟩ rfl rfl

/-! ## C9: injectivity of the mappings the core produces -/

theorem getD_not_mem_eraseIdx (pool : List Location) (hnd : pool.Nodup)
    (i : ℕ) (hi : i < pool.length) : pool.getD i 0 ∉ pool.eraseIdx i := by
  intro hmem
  rw [List.getD_eq_getElem?_getD, List.getElem?_eq_getElem hi] at hmem
  simp only [Option.getD_some] at hmem
  obtain ⟨j, hj, hjx⟩ := List.mem_eraseIdx_iff_getElem?.mp hmem
  have hjlt : j < pool.length := by
    by_contra hge
    rw [List.getElem?_eq_none (Nat.le_of_not_lt hge)] at hjx
    exact Option.noConfusion hjx
  rw [List.getElem?_eq_getElem hjlt] at hjx
  have heq : pool[j] = pool[i] := Option.some_inj.mp hjx
  exact hj ((List.Nodup.getElem_inj_iff hnd).mp heq)

theorem sampleDistinct_nodup_subset :
    ∀ (k : ℕ) (pool : List Location) (rng : Rng), pool.Nodup →
      (sampleDistinct k pool rng).1.Nodup ∧
        ∀ x ∈ (sampleDistinct k pool rng).1, x ∈ pool := by
  intro k
  induction k with
  | zero =>
    intro pool rng _
    exact ⟨List.nodup_nil, fun x hx => absurd hx (List.not_mem_nil x)⟩
  | succ k ih =>
    intro pool rng hnd
    cases pool with
    | nil => exact ⟨List.nodup_nil, fun x hx => absurd hx (List.not_mem_nil x)⟩
    | cons p ps =>
      have hlen : 0 < (p :: ps).length := by simp
      have hi : rng.nextNat.1 % (p :: ps).length < (p :: ps).length := Nat.mod_lt _ hlen
      obtain ⟨hrnd, hrsub⟩ :=
        ih ((p :: ps).eraseIdx (rng.nextNat.1 % (p :: ps).length)) rng.nextNat.2
          (List.Nodup.eraseIdx _ hnd)
      have hunfold : sampleDistinct (k + 1) (p :: ps) rng =
          ((p :: ps).getD (rng.nextNat.1 % (p :: ps).length) 0 ::
              (sampleDistinct k
                ((p :: ps).eraseIdx (rng.nextNat.1 % (p :: ps).length))
                rng.nextNat.2).1,
            (sampleDistinct k
              ((p :: ps).eraseIdx (rng.nextNat.1 % (p :: ps).length))
              rng.nextNat.2).2) := rfl
      rw [hunfold]
      constructor
      · refine List.nodup_cons.mpr ⟨?_, hrnd⟩
        intro hmem
        exact getD_not_mem_eraseIdx (p :: ps) hnd _ hi (hrsub _ hmem)
      · intro x hx
        rcases List.mem_cons.mp hx with h | h
        · rw [h, List.getD_eq_getElem?_getD, List.getElem?_eq_getElem hi]
          exact List.getElem_mem hi
        · exact List.mem_of_mem_eraseIdx (hrsub x h)

theorem map_snd_zip_sublist :
    ∀ (a : List Qubit) (b : List Location), ((a.zip b).map Prod.snd).Sublist b := by
  intro a
  induction a with
  | nil => intro b; simp
  | cons x a ih =>
    intro b
    cases b with
    | nil => simp
    | cons y b =>
      simp only [List.zip_cons_cons, List.map_cons]
      exact List.Sublist.cons₂ y (ih b)

theorem map_fst_zip_sublist :
    ∀ (a : List Qubit) (b : List Location), ((a.zip b).map Prod.fst).Sublist a := by
  intro a
  induction a with
  | nil => intro b; simp
  | cons x a ih =>
    intro b
    cases b with
    | nil => simp
    | cons y b =>
      simp only [List.zip_cons_cons, List.map_cons]
      exact List.Sublist.cons₂ x (ih b)

/-- Injectivity follows from pairwise-distinct values. -/
theorem mapInjective_of_nodup_snd (l : QubitMap) (hnd : (l.map Prod.snd).Nodup) :
    MapInjective l := by
  intro p₁ h₁ p₂ h₂ hne hval
  exact hne (congrArg Prod.fst (List.inj_on_of_nodup_map hnd h₁ h₂ hval))

theorem fold_qmInsert_eq_reverse_append :
    ∀ (l : List (Qubit × Location)) (m : QubitMap),
      (∀ p ∈ l, ¬ (m.map Prod.fst).contains p.1 = true) →
      (l.map Prod.fst).Nodup →
      l.foldl (fun acc p => qmInsert acc p.1 p.2) m = l.reverse ++ m := by
  intro l
  induction l with
  | nil => intro m _ _; rfl
  | cons p l ih =>
    intro m hfresh hnd
    have hcont : ¬ (m.map Prod.fst).contains p.1 = true :=
      hfresh p (List.mem_cons_self p l)
    have hstep : qmInsert m p.1 p.2 = p :: m := by
      unfold qmInsert
      rw [if_neg hcont]
    rw [List.foldl_cons, hstep, ih (p :: m) ?_ (List.nodup_cons.mp hnd).2]
    · simp
    · intro q hq
      have hq1 : q.1 ≠ p.1 := by
        intro hh
        exact (List.nodup_cons.mp hnd).1 (hh ▸ List.mem_map_of_mem Prod.fst hq)
      simp only [List.map_cons, List.contains_cons]
      intro hc
      rcases Bool.or_eq_true_iff.mp hc with h | h
      · exact hq1 (by simpa using h)
      · exact hfresh q (List.mem_cons_of_mem p hq) h

/-- The function `random_map` builds an injective mapping whenever the architecture's
location list and the circuit's qubit set are duplicate-free. -/
theorem random_map_injective (c : Circuit) (locations : List Location)
    (rng : Rng) (hloc : locations.Nodup) (hqub : c.qubits.Nodup) :
    MapInjective (random_map c locations rng).1 := by
  obtain ⟨hvnd, _⟩ :=
    sampleDistinct_nodup_subset c.qubits.length locations rng hloc
  unfold random_map
  rcases hs : sampleDistinct c.qubits.length locations rng with ⟨v, rng'⟩
  rw [hs] at hvnd
  simp only at hvnd ⊢
  have hkeys : ((c.qubits.zip v).map Prod.fst).Nodup :=
    List.Nodup.sublist (map_fst_zip_sublist _ _) hqub
  have hfold := fold_qmInsert_eq_reverse_append (c.qubits.zip v) []
    (fun p _ => by simp) hkeys
  rw [hfold]
  apply mapInjective_of_nodup_snd
  rw [List.append_nil, List.map_reverse, List.nodup_reverse]
  exact List.Nodup.sublist (map_snd_zip_sublist _ _) hvnd

theorem qmGet_mem (m : QubitMap) (q : Qubit) (l : Location)
    (h : qmGet m q = some l) : (q, l) ∈ m := by
  unfold qmGet at h
  cases hf : m.find? (fun p => p.1 = q) with
  | none => rw [hf] at h; exact Option.noConfusion h
  | some p =>
    rw [hf] at h
    have hp : p.1 = q := by simpa using List.find?_some hf
    have hmem := List.mem_of_find?_eq_some hf
    have hl : p.2 = l := Option.some_inj.mp h
    have : p = (q, l) := Prod.ext hp hl
    exact this ▸ hmem

theorem contains_of_mem (l : List ℕ) (a : ℕ) (h : a ∈ l) :
    l.contains a = true := by
  simpa [List.elem_eq_mem] using h

/-- Both inserts of a swap hit present keys, so the swap rewrites the map
entrywise. -/
theorem qmInsert_swap_eq_map (m : QubitMap) (q₁ q₂ : Qubit) (l₁ l₂ : Location)
    (hne : q₁ ≠ q₂) (hk₁ : q₁ ∈ m.map Prod.fst) (hk₂ : q₂ ∈ m.map Prod.fst) :
    qmInsert (qmInsert m q₁ l₂) q₂ l₁ =
      m.map (fun p =>
        if p.1 = q₁ then (p.1, l₂) else if p.1 = q₂ then (p.1, l₁) else p) := by
  have hc₁ : (m.map Prod.fst).contains q₁ = true := contains_of_mem (m.map Prod.fst) q₁ hk₁
  have h₁ : qmInsert m q₁ l₂ = m.map (fun p => if p.1 = q₁ then (p.1, l₂) else p) := by
    unfold qmInsert; rw [if_pos hc₁]
  have hkeys : (m.map (fun p => if p.1 = q₁ then (p.1, l₂) else p)).map Prod.fst =
      m.map Prod.fst := by
    rw [List.map_map]
    apply List.map_congr_left
    intro p _
    by_cases hp : p.1 = q₁ <;> simp [hp]
  have hc₂ : ((m.map (fun p => if p.1 = q₁ then (p.1, l₂) else p)).map
      Prod.fst).contains q₂ = true := by
    rw [hkeys]; exact contains_of_mem (m.map Prod.fst) q₂ hk₂
  rw [h₁]
  unfold qmInsert
  rw [if_pos hc₂, List.map_map]
  apply List.map_congr_left
  intro p _
  by_cases hp₁ : p.1 = q₁
  · simp [hp₁, hne]
  · by_cases hp₂ : p.1 = q₂
    · simp [hp₁, hp₂, Ne.symm hne]
    · simp [hp₁, hp₂]

theorem swap_preserves_injective (m : QubitMap) (q₁ q₂ : Qubit)
    (l₁ l₂ : Location) (hg₁ : qmGet m q₁ = some l₁) (hg₂ : qmGet m q₂ = some l₂)
    (hne : q₁ ≠ q₂) (hinj : MapInjective m) :
    MapInjective (qmInsert (qmInsert m q₁ l₂) q₂ l₁) := by
  have hm₁ : (q₁, l₁) ∈ m := qmGet_mem m q₁ l₁ hg₁
  have hm₂ : (q₂, l₂) ∈ m := qmGet_mem m q₂ l₂ hg₂
  have hk₁ : q₁ ∈ m.map Prod.fst := by
    simpa using List.mem_map_of_mem Prod.fst hm₁
  have hk₂ : q₂ ∈ m.map Prod.fst := by
    simpa using List.mem_map_of_mem Prod.fst hm₂
  rw [qmInsert_swap_eq_map m q₁ q₂ l₁ l₂ hne hk₁ hk₂]
  have hfst : ∀ p : Qubit × Location,
      ((if p.1 = q₁ then (p.1, l₂) else if p.1 = q₂ then (p.1, l₁) else p) :
        Qubit × Location).1 = p.1 := by
    intro p; split_ifs <;> rfl
  have hsnd : ∀ p : Qubit × Location,
      ((if p.1 = q₁ then (p.1, l₂) else if p.1 = q₂ then (p.1, l₁) else p) :
        Qubit × Location).2 =
        (if p.1 = q₁ then l₂ else if p.1 = q₂ then l₁ else p.2) := by
    intro p; split_ifs <;> rfl
  have hl₁₂ : l₁ ≠ l₂ := hinj (q₁, l₁) hm₁ (q₂, l₂) hm₂ hne
  intro p₁' h₁ p₂' h₂ hkne hval
  obtain ⟨u, hu, hu'⟩ := List.mem_map.mp h₁
  obtain ⟨v, hv, hv'⟩ := List.mem_map.mp h₂
  subst hu'
  subst hv'
  rw [hfst u, hfst v] at hkne
  rw [hsnd u, hsnd v] at hval
  by_cases hu₁ : u.1 = q₁
  · rw [if_pos hu₁] at hval
    by_cases hv₁ : v.1 = q₁
    · exact hkne (hu₁.trans hv₁.symm)
    · rw [if_neg hv₁] at hval
      by_cases hv₂ : v.1 = q₂
      · rw [if_pos hv₂] at hval
        exact hl₁₂ hval.symm
      · rw [if_neg hv₂] at hval
        exact hinj (q₂, l₂) hm₂ v hv (fun hh => hv₂ hh.symm) hval
  · rw [if_neg hu₁] at hval
    by_cases hu₂ : u.1 = q₂
    · rw [if_pos hu₂] at hval
      by_cases hv₁ : v.1 = q₁
      · rw [if_pos hv₁] at hval
        exact hl₁₂ hval
      · rw [if_neg hv₁] at hval
        by_cases hv₂ : v.1 = q₂
        · exact hkne (hu₂.trans hv₂.symm)
        · rw [if_neg hv₂] at hval
          exact hinj (q₁, l₁) hm₁ v hv (fun hh => hv₁ hh.symm) hval
    · rw [if_neg hu₂] at hval
      by_cases hv₁ : v.1 = q₁
      · rw [if_pos hv₁] at hval
        exact hinj u hu (q₂, l₂) hm₂ hu₂ hval
      · rw [if_neg hv₁] at hval
        by_cases hv₂ : v.1 = q₂
        · rw [if_pos hv₂] at hval
          exact hinj u hu (q₁, l₁) hm₁ hu₁ hval
        · rw [if_neg hv₂] at hval
          exact hinj u hu v hv hkne hval

theorem intoOpen_preserves_injective (m : QubitMap) (q : Qubit) (l : Location)
    (hfree : l ∉ m.map Prod.snd) (hinj : MapInjective m) :
    MapInjective (qmInsert m q l) := by
  unfold qmInsert
  by_cases hc : (m.map Prod.fst).contains q = true
  · rw [if_pos hc]
    have hfst : ∀ p : Qubit × Location,
        ((if p.1 = q then (p.1, l) else p) : Qubit × Location).1 = p.1 := by
      intro p; split_ifs <;> rfl
    have hsnd : ∀ p : Qubit × Location,
        ((if p.1 = q then (p.1, l) else p) : Qubit × Location).2 =
          (if p.1 = q then l else p.2) := by
      intro p; split_ifs <;> rfl
    intro p₁' h₁ p₂' h₂ hkne hval
    obtain ⟨u, hu, hu'⟩ := List.mem_map.mp h₁
    obtain ⟨v, hv, hv'⟩ := List.mem_map.mp h₂
    subst hu'
    subst hv'
    rw [hfst u, hfst v] at hkne
    rw [hsnd u, hsnd v] at hval
    by_cases hu₁ : u.1 = q
    · rw [if_pos hu₁] at hval
      by_cases hv₁ : v.1 = q
      · exact hkne (hu₁.trans hv₁.symm)
      · rw [if_neg hv₁] at hval
        exact hfree (hval ▸ List.mem_map_of_mem Prod.snd hv)
    · rw [if_neg hu₁] at hval
      by_cases hv₁ : v.1 = q
      · rw [if_pos hv₁] at hval
        exact hfree (hval.symm ▸ List.mem_map_of_mem Prod.snd hu)
      · rw [if_neg hv₁] at hval
        exact hinj u hu v hv hkne hval
  · rw [if_neg hc]
    intro p₁' h₁ p₂' h₂ hkne hval
    rcases List.mem_cons.mp h₁ with h₁' | h₁' <;>
      rcases List.mem_cons.mp h₂ with h₂' | h₂'
    · exact hkne (by rw [h₁', h₂'])
    · subst h₁'
      have : l = p₂'.2 := hval
      exact hfree (this ▸ List.mem_map_of_mem Prod.snd h₂')
    · subst h₂'
      have : l = p₁'.2 := hval.symm
      exact hfree (this ▸ List.mem_map_of_mem Prod.snd h₁')
    · exact hinj p₁' h₁' p₂' h₂' hkne hval

theorem genMoves_cases (m : QubitMap) (locs : List Location) (mv : AnnealMove)
    (h : mv ∈ genMoves m locs) :
    (∃ q₁ q₂, mv = AnnealMove.swapKeys q₁ q₂ ∧ q₁ ≠ q₂) ∨
      (∃ q l, mv = AnnealMove.intoOpen q l ∧ l ∉ m.map Prod.snd) := by
  unfold genMoves at h
  rcases List.mem_append.mp h with h | h
  · left
    obtain ⟨q₁, _, hq₁⟩ := List.mem_flatMap.mp h
    obtain ⟨q₂, _, hq₂⟩ := List.mem_filterMap.mp hq₁
    by_cases heq : q₁ = q₂
    · rw [if_pos heq] at hq₂
      exact Option.noConfusion hq₂
    · rw [if_neg heq] at hq₂
      exact ⟨q₁, q₂, (Option.some_inj.mp hq₂).symm, heq⟩
  · right
    obtain ⟨q, _, hq⟩ := List.mem_flatMap.mp h
    obtain ⟨l, _, hl⟩ := List.mem_filterMap.mp hq
    by_cases hc : (m.map Prod.snd).contains l = true
    · rw [if_pos hc] at hl
      exact Option.noConfusion hl
    · rw [if_neg hc] at hl
      refine ⟨q, l, (Option.some_inj.mp hl).symm, ?_⟩
      intro hmem
      exact hc (contains_of_mem _ _ hmem)

theorem applyMove_injective (m : QubitMap) (locs : List Location)
    (mv : AnnealMove) (hmv : mv ∈ genMoves m locs) (hinj : MapInjective m) :
    MapInjective (applyMove m mv) := by
  cases mv with
  | swapKeys q₁ q₂ =>
    have hne : q₁ ≠ q₂ := by
      rcases genMoves_cases m locs _ hmv with ⟨a, b, heq, hab⟩ | ⟨a, b, heq, _⟩
      · cases heq; exact hab
      · exact AnnealMove.noConfusion heq
    have hred : applyMove m (AnnealMove.swapKeys q₁ q₂) =
        match qmGet m q₁, qmGet m q₂ with
        | some l₁, some l₂ => qmInsert (qmInsert m q₁ l₂) q₂ l₁
        | _, _ => m := rfl
    rw [hred]
    cases hg₁ : qmGet m q₁ with
    | none => cases hg₂ : qmGet m q₂ <;> exact hinj
    | some l₁ =>
      cases hg₂ : qmGet m q₂ with
      | none => exact hinj
      | some l₂ => exact swap_preserves_injective m q₁ q₂ l₁ l₂ hg₁ hg₂ hne hinj
  | intoOpen q l =>
    have hfree : l ∉ m.map Prod.snd := by
      rcases genMoves_cases m locs _ hmv with ⟨a, b, heq, _⟩ | ⟨a, b, heq, hf⟩
      · exact AnnealMove.noConfusion heq
      · cases heq; exact hf
    have hred : applyMove m (AnnealMove.intoOpen q l) = qmInsert m q l := rfl
    rw [hred]
    exact intoOpen_preserves_injective m q l hfree hinj

/-- The function `random_neighbor` preserves mapping injectivity: every generated
neighbour of an injective mapping is injective. -/
theorem random_neighbor_injective (m : QubitMap) (locations : List Location)
    (rng : Rng) (hinj : MapInjective m) :
    MapInjective (random_neighbor m locations rng).1 := by
  unfold random_neighbor
  cases hmv : genMoves m locations with
  | nil => exact hinj
  | cons mv₀ rest =>
    simp only
    have hlen : 0 < (genMoves m locations).length := by rw [hmv]; simp
    have hidx : rng.nextNat.1 % (genMoves m locations).length <
        (genMoves m locations).length := Nat.mod_lt _ hlen
    have hmem : (genMoves m locations).getD
        (rng.nextNat.1 % (genMoves m locations).length)
        (AnnealMove.intoOpen 0 0) ∈ genMoves m locations := by
      rw [List.getD_eq_getElem?_getD, List.getElem?_eq_getElem hidx]
      exact List.getElem_mem hidx
    rw [← hmv]
    exact applyMove_injective m locations _ hmem hinj

theorem routeAux_steps_injective {G A : Type} (env : RouteEnv G A)
    (Htrans : ∀ (s : Step G) (t : Transition G A), t ∈ env.transitions s →
      MapInjective s.map → MapInjective ((t.apply s).map))
    (Hmax : ∀ (s : Step G) (ex : List Gate), (env.maximize s ex).map = s.map) :
    ∀ (fuel : ℕ) (current : Circuit) (stepsAcc : List (Step G)) (last : Step G)
      (transAcc : List String) (cost : ℚ) (res : CompilerResult G),
      routeAux env fuel current stepsAcc last transAcc cost = .ok res →
      (∀ s ∈ stepsAcc, MapInjective s.map) → MapInjective last.map →
      ∀ s ∈ res.steps, MapInjective s.map := by
  intro fuel
  induction fuel with
  | zero =>
    intro current stepsAcc last transAcc cost res h
    rw [routeAux] at h
    exact Except.noConfusion h
  | succ fuel ih =>
    intro current stepsAcc last transAcc cost res h hacc hlast
    rw [routeAux] at h
    by_cases hempty : current.gates.isEmpty
    · rw [if_pos hempty] at h
      cases Except.ok.inj h
      intro s hs
      simp only [List.mem_append, List.mem_singleton] at hs
      rcases hs with hs | hs
      · exact hacc s hs
      · exact hs ▸ hlast
    · rw [if_neg hempty] at h
      cases hfb : find_best_next_step env current last with
      | none => rw [hfb] at h; exact Except.noConfusion h
      | some x =>
        rcases x with ⟨s, t, b⟩
        rw [hfb] at h
        obtain ⟨htmem, hshape⟩ := find_best_some_shape env current last (s, t, b) hfb
        have htmem' : t ∈ env.transitions last := htmem
        have hshape' : s = env.maximize (t.apply last) current.get_front_layer := hshape
        have hsinj : MapInjective s.map := by
          have hmapeq : s.map = ((t.apply last).map) := by
            rw [hshape']; exact Hmax _ _
          rw [hmapeq]
          exact Htrans last t htmem' hlast
        refine ih _ _ _ _ _ _ h ?_ hsinj
        intro s' hs'
        simp only [List.mem_append, List.mem_singleton] at hs'
        rcases hs' with hs' | hs'
        · exact hacc s' hs'
        · exact hs' ▸ hlast

/-- Route part of the injectivity analysis: if every transition the plug-in generates
preserves mapping injectivity and the step maximizer leaves the mapping
untouched, every step of a returned result has an injective mapping. -/
theorem route_steps_injective {G A : Type} (env : RouteEnv G A)
    (Htrans : ∀ (s : Step G) (t : Transition G A), t ∈ env.transitions s →
      MapInjective s.map → MapInjective ((t.apply s).map))
    (Hmax : ∀ (s : Step G) (ex : List Gate), (env.maximize s ex).map = s.map)
    (c : Circuit) (map : QubitMap) (fuel : ℕ) (res : CompilerResult G)
    (hres : route env c map fuel = Except.ok res) (hinj : MapInjective map) :
    ∀ s ∈ res.steps, MapInjective s.map := by
  unfold route at hres
  refine routeAux_steps_injective env Htrans Hmax fuel _ [] _ [] _ res hres
    (fun s hs => absurd hs (List.not_mem_nil s)) ?_
  rw [Hmax]
  exact hinj

/-- C9, amended: every mapping built by the core itself is injective — the
random initial map (for duplicate-free location and qubit lists), every
neighbour generated by `random_neighbor`, and, **provided the plug-in's
transitions preserve injectivity and the maximizer leaves mappings
untouched**, every step mapping of a returned result. -/
theorem qubit_mappings_injective :
    (∀ (c : Circuit) (locations : List Location) (rng : Rng),
        locations.Nodup → c.qubits.Nodup →
        MapInjective (random_map c locations rng).1) ∧
      (∀ (m : QubitMap) (locations : List Location) (rng : Rng),
        MapInjective m → MapInjective (random_neighbor m locations rng).1) ∧
      (∀ (G A : Type) (env : RouteEnv G A),
        (∀ (s : Step G) (t : Transition G A), t ∈ env.transitions s →
          MapInjective s.map → MapInjective ((t.apply s).map)) →
        (∀ (s : Step G) (ex : List Gate), (env.maximize s ex).map = s.map) →
        ∀ (c : Circuit) (map : QubitMap) (fuel : ℕ) (res : CompilerResult G),
          route env c map fuel = Except.ok res → MapInjective map →
          ∀ s ∈ res.steps, MapInjective s.map) :=
  ⟨fun c locations rng hloc hqub => random_map_injective c locations rng hloc hqub,
   fun m locations rng hinj => random_neighbor_injective m locations rng hinj,
   fun _ _ env Htrans Hmax c map fuel res hres hinj =>
     route_steps_injective env Htrans Hmax c map fuel res hres hinj⟩

/-- A degenerate plug-in transition that rewrites any mapping to the
non-injective mapping sending qubits 0 and 1 to the same location. -/
def badTrans : Transition Unit Unit :=
  { apply := fun _ => ⟨[(0, 7), (1, 7)], []⟩, repr := "bad", cost := fun _ => 0 }

/-- Routing environment built on `badTrans`. -/
def envBad : RouteEnv Unit Unit :=
  { arch := ()
    transitions := fun _ => [badTrans]
    maximize := fun s ex => s.max_step ex () (fun _ _ _ => some ())
    step_cost := fun _ _ => 0
    map_eval := fun _ _ => 0
    crit_table := build_criticality_table circW2 }

/-- The result `route` produces on `envBad` / `circW2` from the injective
initial map `[(0,1),(1,2)]`. -/
def resBad : CompilerResult Unit :=
  { steps := [⟨[(0, 1), (1, 2)], [⟨⟨GateType.CX, [0, 1], 0⟩, ()⟩]⟩,
              ⟨[(0, 7), (1, 7)], [⟨⟨GateType.CX, [0, 1], 1⟩, ()⟩]⟩]
    transitions := ["bad"]
    cost := 0 }

/-- C9, counterexample: step mappings of the returned result come from the
plug-in's transition rewrites, which the core does not police — a transition
that merges two qubits onto one location yields a result containing a
non-injective step mapping, refuting the unconditional claim. -/
theorem route_result_contains_noninjective_map :
    route envBad circW2 [(0, 1), (1, 2)] 5 = Except.ok resBad ∧
      ∃ s ∈ resBad.steps, ¬ MapInjective s.map := by
  refine ⟨by with_unfolding_all rfl, ?_⟩
  refine ⟨⟨[(0, 7), (1, 7)], [⟨⟨GateType.CX, [0, 1], 1⟩, ()⟩]⟩, ?_, ?_⟩
  · decide
  · decide

/-- C9, witness: the amended statement applied at concrete inputs — a random
map over duplicate-free lists, a neighbour of an injective mapping, and the
steps of the `envC2` run (whose empty transition generator vacuously
preserves injectivity). -/
theorem qubit_mappings_injective_witness :
    MapInjective (random_map circC2 [0, 1] ⟨[0], []⟩).1 ∧
      MapInjective (random_neighbor [(0, 0), (1, 1)] [0, 1, 2] ⟨[0], []⟩).1 ∧
      ∀ s ∈ resC2.steps, MapInjective s.map := by
  obtain ⟨h₁, h₂, h₃⟩ := qubit_mappings_injective
  refine ⟨h₁ circC2 [0, 1] ⟨[0], []⟩ (by decide) (by decide),
    h₂ [(0, 0), (1, 1)] [0, 1, 2] ⟨[0], []⟩ (by decide), ?_⟩
  refine h₃ Unit Unit envC2 ?_ ?_ circC2 [] 5 resC2 rfl (by decide)
  · intro s t ht
    exact absurd ht (List.not_mem_nil t)
  · intro s ex
    exact max_step_map_unchanged ex s () (fun _ _ _ => some ())

/-! ## C5: soundness of the lazy simple-path enumeration -/

theorem mem_of_contains (l : List ℕ) (a : ℕ) (h : l.contains a = true) :
    a ∈ l := by
  simpa [List.elem_eq_mem] using h

theorem not_mem_of_not_contains (l : List ℕ) (a : ℕ)
    (h : ¬ l.contains a = true) : a ∉ l :=
  fun hm => h (contains_of_mem l a hm)

theorem head?_concat_of_ne_nil (l : List ℕ) (a : ℕ) (h : l ≠ []) :
    (l ++ [a]).head? = l.head? := by
  cases l with
  | nil => exact absurd rfl h
  | cons x t => rfl

theorem head?_dropLast_some (l : List ℕ) (s : ℕ)
    (h : l.dropLast.head? = some s) : l.head? = some s := by
  cases l with
  | nil => simp at h
  | cons x t =>
    cases t with
    | nil => simp at h
    | cons y u => simpa using h

theorem nodup_concat_of (l : List ℕ) (a : ℕ) (hnd : l.Nodup) (hna : a ∉ l) :
    (l ++ [a]).Nodup := by
  simp [List.nodup_append, hnd, hna]

/-- Invariant of the DFS state: the visited list is duplicate-free, lives in
the (reduced) graph, starts at an unblocked start, and is kept in sync with
the stack of neighbour iterators, whose entries all live in the graph. -/
def PathInv (g : SGraph) (ustarts : List Location) (st : PathState) : Prop :=
  st.visited.Nodup ∧
    (∀ v ∈ st.visited, v ∈ g.nodes) ∧
    (∀ s, st.visited.head? = some s → s ∈ ustarts) ∧
    st.stack.length = st.visited.length ∧
    (∀ cl ∈ st.stack, ∀ v ∈ cl, v ∈ g.nodes)

/-- What is true of every yielded path: its head is an unblocked start, its
vertices live in the (reduced) graph, all vertices but the last are pairwise
distinct, and — when the path is not overlong — its last vertex is an end. -/
def PathSound (ustarts ends nodes : List Location) (maxLength : ℕ)
    (p : List Location) : Prop :=
  (∀ s, p.head? = some s → s ∈ ustarts) ∧
    (∀ v ∈ p, v ∈ nodes) ∧
    p.dropLast.Nodup ∧
    (p.length ≤ maxLength → ∃ e, p.getLast? = some e ∧ e ∈ ends)

theorem pathNext_sound (g : SGraph) (ustarts ends uends : List Location)
    (maxLength : ℕ)
    (Hadj : ∀ v : Location, ∀ u ∈ g.adj v, u ∈ g.nodes)
    (Hustarts : ∀ s ∈ ustarts, s ∈ g.nodes) :
    ∀ (fuel : ℕ) (st : PathState), PathInv g ustarts st →
      ∀ (p : List Location) (st' : PathState),
        pathNext g ustarts ends uends maxLength fuel st = some (p, st') →
        PathSound ustarts ends g.nodes maxLength p ∧ PathInv g ustarts st' := by
  intro fuel
  induction fuel with
  | zero =>
    intro st _ p st' h
    rw [pathNext] at h
    exact Option.noConfusion h
  | succ fuel ih =>
    intro st hinv p st' h
    obtain ⟨sc, visited, stack⟩ := st
    obtain ⟨hnodup, hvnodes, hhead, hlen, hstack⟩ := hinv
    simp only at hnodup hvnodes hhead hlen hstack
    rcases stack with _ | ⟨children, restStack⟩
    · simp only [pathNext] at h
      cases hus : ustarts[sc + 1]? with
      | none => rw [hus] at h; exact Option.noConfusion h
      | some s =>
        rw [hus] at h
        simp only at h
        have hsmem : s ∈ ustarts := by
          obtain ⟨hb, he⟩ := List.getElem?_eq_some_iff.mp hus
          exact he ▸ List.getElem_mem hb
        refine ih _ ?_ p st' h
        refine ⟨List.nodup_singleton s, ?_, ?_, by simp, ?_⟩
        · intro v hv
          rw [List.mem_singleton.mp hv]
          exact Hustarts s hsmem
        · intro s' hs'
          simp only [List.head?_cons, Option.some_inj] at hs'
          exact hs' ▸ hsmem
        · intro cl hcl v hv
          simp only [List.mem_singleton] at hcl
          rw [hcl] at hv
          exact Hadj s v hv
    · have hlen' : restStack.length + 1 = visited.length := by simpa using hlen
      have hvne : visited ≠ [] := by
        intro hh
        rw [hh] at hlen'
        simp at hlen'
      have hpopInv : PathInv g ustarts ⟨sc, visited.dropLast, restStack⟩ := by
        refine ⟨List.Nodup.sublist (List.dropLast_sublist _) hnodup, ?_, ?_, ?_, ?_⟩
        · intro v hv
          exact hvnodes v ((List.dropLast_sublist _).subset hv)
        · intro s hs
          exact hhead s (head?_dropLast_some _ _ hs)
        · simp only [List.length_dropLast]
          omega
        · intro cl hcl v hv
          exact hstack cl (List.mem_cons_of_mem _ hcl) v hv
      rcases children with _ | ⟨child, restChildren⟩
      · simp only [pathNext] at h
        exact ih _ hpopInv p st' h
      · have hchild : child ∈ g.nodes :=
          hstack _ (List.mem_cons_self _ _) child (List.mem_cons_self _ _)
        have hrestch : ∀ v ∈ restChildren, v ∈ g.nodes := by
          intro v hv
          exact hstack _ (List.mem_cons_self _ _) v (List.mem_cons_of_mem _ hv)
        have hreststack : ∀ cl ∈ restStack, ∀ v ∈ cl, v ∈ g.nodes := by
          intro cl hcl v hv
          exact hstack cl (List.mem_cons_of_mem _ hcl) v hv
        have hheadapp : ∀ s, (visited ++ [child]).head? = some s → s ∈ ustarts := by
          intro s hs
          rw [head?_concat_of_ne_nil _ _ hvne] at hs
          exact hhead s hs
        have hnodesapp : ∀ v ∈ visited ++ [child], v ∈ g.nodes := by
          intro v hv
          rcases List.mem_append.mp hv with hv | hv
          · exact hvnodes v hv
          · rw [List.mem_singleton.mp hv]
            exact hchild
        have hInvTail : PathInv g ustarts ⟨sc, visited, restChildren :: restStack⟩ := by
          refine ⟨hnodup, hvnodes, hhead, ?_, ?_⟩
          · simp only [List.length_cons]
            omega
          · intro cl hcl v hv
            rcases List.mem_cons.mp hcl with hcl | hcl
            · exact hrestch v (hcl ▸ hv)
            · exact hreststack cl hcl v hv
        simp only [pathNext] at h
        by_cases hlt : visited.length < maxLength
        · rw [if_pos hlt] at h
          by_cases hend : ends.contains child = true
          · rw [if_pos hend] at h
            cases Option.some_inj.mp h
            refine ⟨⟨hheadapp, hnodesapp, ?_, ?_⟩, hInvTail⟩
            · rw [List.dropLast_concat]
              exact hnodup
            · intro _
              exact ⟨child, List.getLast?_concat _, mem_of_contains _ _ hend⟩
          · rw [if_neg hend] at h
            by_cases hvis : visited.contains child = true
            · rw [if_pos hvis] at h
              exact ih _ hInvTail p st' h
            · rw [if_neg hvis] at h
              refine ih _ ?_ p st' h
              refine ⟨nodup_concat_of _ _ hnodup (not_mem_of_not_contains _ _ hvis),
                hnodesapp, hheadapp, ?_, ?_⟩
              · simp only [List.length_cons, List.length_append, List.length_singleton,
                  List.length_nil]
                omega
              · intro cl hcl v hv
                rcases List.mem_cons.mp hcl with hcl | hcl
                · exact Hadj child v (hcl ▸ hv)
                · rcases List.mem_cons.mp hcl with hcl' | hcl'
                  · exact hrestch v (hcl' ▸ hv)
                  · exact hreststack cl hcl' v hv
        · rw [if_neg hlt] at h
          have hoverlong : ((visited ++ [child]).length ≤ maxLength → False) := by
            intro hle
            rw [List.length_append, List.length_singleton] at hle
            omega
          by_cases huend : uends.contains child = true
          · rw [if_pos huend] at h
            cases Option.some_inj.mp h
            refine ⟨⟨hheadapp, hnodesapp, ?_, ?_⟩, hInvTail⟩
            · rw [List.dropLast_concat]
              exact hnodup
            · intro hle
              exact absurd hle (fun hh => hoverlong hh)
          · rw [if_neg huend] at h
            cases hdw : restChildren.dropWhile (fun x => ¬ uends.contains x) with
            | nil =>
              rw [hdw] at h
              exact ih _ hpopInv p st' h
            | cons y remaining =>
              rw [hdw] at h
              simp only at h
              cases Option.some_inj.mp h
              have hremsub : remaining.Sublist restChildren := by
                have h1 : (y :: remaining).Sublist restChildren := by
                  rw [← hdw]
                  exact List.dropWhile_sublist _
                exact List.Sublist.trans (List.sublist_cons_self y remaining) h1
              refine ⟨⟨hheadapp, hnodesapp, ?_, ?_⟩, ?_⟩
              · rw [List.dropLast_concat]
                exact hnodup
              · intro hle
                exact absurd hle (fun hh => hoverlong hh)
              · refine ⟨hnodup, hvnodes, hhead, ?_, ?_⟩
                · simp only [List.length_cons]
                  omega
                · intro cl hcl v hv
                  rcases List.mem_cons.mp hcl with hcl | hcl
                  · exact hrestch v (hremsub.subset (hcl ▸ hv))
                  · exact hreststack cl hcl v hv

theorem collectPaths_sound (g : SGraph) (ustarts ends uends : List Location)
    (maxLength : ℕ)
    (Hadj : ∀ v : Location, ∀ u ∈ g.adj v, u ∈ g.nodes)
    (Hustarts : ∀ s ∈ ustarts, s ∈ g.nodes) :
    ∀ (fuel : ℕ) (st : PathState), PathInv g ustarts st →
      ∀ p ∈ collectPaths g ustarts ends uends maxLength fuel st,
        PathSound ustarts ends g.nodes maxLength p := by
  intro fuel
  induction fuel with
  | zero =>
    intro st _ p hp
    rw [collectPaths] at hp
    exact absurd hp (List.not_mem_nil p)
  | succ fuel ih =>
    intro st hinv p hp
    rw [collectPaths] at hp
    cases hn : pathNext g ustarts ends uends maxLength fuel st with
    | none =>
      rw [hn] at hp
      exact absurd hp (List.not_mem_nil p)
    | some x =>
      rcases x with ⟨q, st'⟩
      rw [hn] at hp
      obtain ⟨hsound, hinv'⟩ :=
        pathNext_sound g ustarts ends uends maxLength Hadj Hustarts fuel st hinv q st' hn
      rcases List.mem_cons.mp hp with hp | hp
      · exact hp ▸ hsound
      · exact ih st' hinv' p hp

/-- C5, amended: every path yielded by `all_paths` has its first vertex in
`starts` and contains no blocked location; all of its vertices except
possibly the last are pairwise distinct (the final vertex may revisit an
earlier one); and whenever the path is not overlong (length at most the node
count of the architecture graph) its last vertex lies in `ends`. -/
theorem all_paths_sound (g₀ : SGraph) (starts ends blocked : List Location)
    (fuel : ℕ)
    (Hadj : ∀ v : Location, ∀ u ∈ g₀.adj v, u ∈ g₀.nodes) :
    ∀ p ∈ all_paths g₀ starts ends blocked fuel,
      (∀ s, p.head? = some s → s ∈ starts) ∧
        (∀ v ∈ p, v ∈ g₀.nodes ∧ v ∉ blocked) ∧
        p.dropLast.Nodup ∧
        (p.length ≤ g₀.nodes.length → ∃ e, p.getLast? = some e ∧ e ∈ ends) := by
  intro p hp
  simp only [all_paths] at hp
  have Hadj' : ∀ v : Location, ∀ u ∈ (removeNodes g₀ blocked).adj v,
      u ∈ (removeNodes g₀ blocked).nodes := by
    intro v u hu
    unfold removeNodes at hu ⊢
    simp only [List.mem_filter] at hu ⊢
    exact ⟨Hadj v u hu.1, hu.2⟩
  have Hustarts' : ∀ s ∈ starts.filter
      (fun s => (removeNodes g₀ blocked).nodes.contains s),
      s ∈ (removeNodes g₀ blocked).nodes := by
    intro s hs
    exact mem_of_contains _ _ (List.of_mem_filter hs)
  have hsound : PathSound
      (starts.filter (fun s => (removeNodes g₀ blocked).nodes.contains s)) ends
      (removeNodes g₀ blocked).nodes g₀.nodes.length p := by
    refine collectPaths_sound (removeNodes g₀ blocked) _ ends _ _ Hadj' Hustarts'
      fuel _ ?_ p hp
    cases husl : starts.filter (fun s => (removeNodes g₀ blocked).nodes.contains s) with
    | nil =>
      exact ⟨List.nodup_nil, fun v hv => absurd hv (List.not_mem_nil v),
        fun s hs => by simp at hs, by simp, fun cl hcl => absurd hcl (List.not_mem_nil cl)⟩
    | cons s₀ rest =>
      refine ⟨List.nodup_singleton s₀, ?_, ?_, by simp, ?_⟩
      · intro v hv
        rw [List.mem_singleton.mp hv]
        exact Hustarts' s₀ (by rw [husl]; exact List.mem_cons_self s₀ rest)
      · intro s hs
        simp only [List.head?_cons, Option.some_inj] at hs
        rw [← hs]
        exact List.mem_cons_self s₀ rest
      · intro cl hcl v hv
        simp only [List.mem_singleton] at hcl
        rw [hcl] at hv
        exact Hadj' s₀ v hv
  obtain ⟨hhead, hnodes, hdl, hend⟩ := hsound
  refine ⟨?_, ?_, hdl, hend⟩
  · intro s hs
    exact List.mem_of_mem_filter (hhead s hs)
  · intro v hv
    have := hnodes v hv
    unfold removeNodes at this
    simp only [List.mem_filter] at this
    refine ⟨this.1, ?_⟩
    have hnc := this.2
    simp only [decide_eq_true_eq] at hnc
    exact not_mem_of_not_contains _ _ hnc

/-- The 3-node path architecture graph 0–1–2, with the neighbour order
petgraph produces for `path_graph(3)` (edges inserted (0,1),(1,0),(1,2),(2,1);
`neighbors` iterates outgoing edges most-recent-first). -/
def path3 : SGraph :=
  { nodes := [0, 1, 2],
    adj := fun v =>
      match v with
      | 0 => [1]
      | 1 => [2, 0]
      | 2 => [1]
      | _ => [] }

/-- C5, counterexample: with `starts = ends = [0]` on the 3-path, the
enumerator yields the walk `[0, 1, 0]`, which repeats vertex 0 — the
end-of-path test fires before the visited-check, so yielded paths need not be
simple. -/
theorem all_paths_yields_repeated_vertex :
    [0, 1, 0] ∈ all_paths path3 [0] [0] [] 60 ∧
      ¬ ([0, 1, 0] : List Location).Nodup := by
  decide

/-- C5, witness: the amended soundness statement evaluated on the 3-path for
the yielded path `[0, 1, 2]`. -/
theorem all_paths_sound_witness :
    (∀ s, ([0, 1, 2] : List Location).head? = some s → s ∈ [0]) ∧
      (∀ v ∈ ([0, 1, 2] : List Location), v ∈ path3.nodes ∧ v ∉ ([] : List Location)) ∧
      ([0, 1, 2] : List Location).dropLast.Nodup ∧
      (([0, 1, 2] : List Location).length ≤ path3.nodes.length →
        ∃ e, ([0, 1, 2] : List Location).getLast? = some e ∧ e ∈ [2]) :=
  all_paths_sound path3 [0] [2] [] 60
    (by
      intro v u hu
      rcases v with _ | _ | _ | n
      · simp only [path3] at hu
        simp [path3, List.mem_singleton.mp hu]
      · simp only [path3] at hu
        rcases List.mem_cons.mp hu with h | h
        · simp [path3, h]
        · simp [path3, List.mem_singleton.mp h]
      · simp only [path3] at hu
        simp [path3, List.mem_singleton.mp hu]
      · simp only [path3] at hu
        exact absurd hu (List.not_mem_nil u))
    [0, 1, 2] (by decide)

end QMR